import Mathlib

/-!
Verification of the Auto_emailer report pipeline.

This file shallowly embeds the core of the application: the row normalizer
(`processFile` in `src/App.tsx`), the sub-bottler group partitioner, the
batched draft-generation orchestrator and its per-group draft state, the
generation-service row sort (`generateEmailDraft`), and the recipient
validation / CSV export helpers of `src/components/ReportDashboard.tsx`.
Records are association lists in JS property-enumeration order; JS scalar
values are modelled by an explicit inductive type.
-/

namespace AutoEmailer

/-- A JavaScript `Date` as observed by the code: either invalid
(`isNaN(date.getTime())`) or a valid calendar date carrying exactly the
fields the code reads (`getFullYear`, `getMonth() + 1`, `getDate`). -/
inductive JDate where
  | invalid
  | valid (year month day : Nat)
  deriving DecidableEq, Repr

/-- A scalar cell value as delivered by the spreadsheet parser
(`sheet_to_json` with `cellDates: true`): `null`, a string, a number
(modelled as an integer; JS float specials are outside the model), or a JS
`Date`. -/
inductive Scalar where
  | null
  | str (s : String)
  | num (n : Int)
  | date (d : JDate)
  deriving DecidableEq, Repr

/-- `String(n).padStart(2, '0')`: zero-pad the decimal numeral to at least
two characters. -/
def pad2 (n : Nat) : String :=
  let s := toString n
  if s.length < 2 then "0" ++ s else s

/-- JS weekday names, indexed by `Date.prototype.getDay`. -/
def jsDayNames : List String := ["Sun", "Mon", "Tue", "Wed", "Thu", "Fri", "Sat"]

/-- JS month abbreviations, indexed by `Date.prototype.getMonth`. -/
def jsMonthNames : List String :=
  ["Jan", "Feb", "Mar", "Apr", "May", "Jun", "Jul", "Aug", "Sep", "Oct", "Nov", "Dec"]

/-- Day of week (0 = Sunday) of a Gregorian date, by Zeller's congruence;
used only to render `Date.prototype.toString`. -/
def zellerDow (year month day : Nat) : Nat :=
  let m := if month ≤ 2 then month + 12 else month
  let y := if month ≤ 2 then year - 1 else year
  let k := y % 100
  let j := y / 100
  let h := (day + (13 * (m + 1)) / 5 + k + k / 4 + j / 4 + 5 * j) % 7
  (h + 6) % 7

/-- `String(d)` for a JS `Date`.  An invalid date renders as the literal
"Invalid Date"; a valid date's rendering is environment-dependent (timezone,
locale), fixed here to UTC midnight — no claim inspects it. -/
def jsDateToString : JDate → String
  | .invalid => "Invalid Date"
  | .valid y m d =>
      (jsDayNames.getD (zellerDow y m d) "") ++ " " ++ (jsMonthNames.getD (m - 1) "") ++ " "
        ++ pad2 d ++ " " ++ toString y ++ " 00:00:00 GMT+0000 (Coordinated Universal Time)"

/-- JS `String(v)` on a defined scalar. -/
def jsString : Scalar → String
  | .null => "null"
  | .str s => s
  | .num n => toString n
  | .date d => jsDateToString d

/-- JS `String(x)` where `x` may be `undefined` (an absent property). -/
def jsStringOpt : Option Scalar → String
  | none => "undefined"
  | some v => jsString v

/-- JS truthiness of a possibly-absent scalar: `undefined`, `null`, `""` and
`0` are falsy; every object — hence every `Date` — is truthy. -/
def jsTruthy : Option Scalar → Bool
  | none => false
  | some .null => false
  | some (.str s) => s != ""
  | some (.num n) => n != 0
  | some (.date _) => true

/-- JS `x ?? ''`: `null` and `undefined` become the empty string. -/
def jsCoalesceEmpty : Option Scalar → Scalar
  | none => .str ""
  | some .null => .str ""
  | some v => v

/-- JS `String.prototype.toUpperCase` (ASCII portion). -/
def jsToUpper (s : String) : String := String.mk (s.toList.map Char.toUpper)

/-- JS `String.prototype.toLowerCase` (ASCII portion) on a character
list. -/
def lowerChars (cs : List Char) : List Char := cs.map Char.toLower

/-- JS `String.prototype.trim` on a character list: drop whitespace from
both ends. -/
def trimChars (cs : List Char) : List Char :=
  ((cs.dropWhile Char.isWhitespace).reverse.dropWhile Char.isWhitespace).reverse

/-- JS `String.prototype.trim`. -/
def jsTrim (s : String) : String := String.mk (trimChars s.toList)

/-- JS `String.prototype.split` with a single-character separator:
accumulate the current piece (reversed) and cut at each separator. -/
def splitCharAux (sep : Char) : List Char → List Char → List String
  | [], cur => [String.mk cur.reverse]
  | c :: cs, cur =>
      if c == sep then String.mk cur.reverse :: splitCharAux sep cs []
      else splitCharAux sep cs (c :: cur)

/-- JS `s.split(sep)` for a one-character separator (`"".split(sep)` gives
`[""]`, like JS). -/
def splitChar (sep : Char) (s : String) : List String := splitCharAux sep s.toList []

/-- Decimal reading of a string (the semantics of `String.toNat?`): `some`
exactly on non-empty all-digit strings. -/
def decimalNat? (s : String) : Option Nat :=
  let cs := s.toList
  if cs.isEmpty then none
  else if cs.all (fun c => c.isDigit) then
    some (cs.foldl (fun acc c => acc * 10 + (c.toNat - 48)) 0)
  else none

/-- The printable-ASCII class `[\x20-\x7E]` kept by the header cleaner. -/
def isPrintableAscii (c : Char) : Bool := 0x20 ≤ c.toNat && c.toNat ≤ 0x7E

/-- The regex class `[\s_]` whose runs the header normalizer collapses. -/
def isSpaceOrUnderscore (c : Char) : Bool := c.isWhitespace || c == '_'

/-- `.replace(/[\s_]+/g, '-')`: collapse every run of whitespace or
underscores into a single hyphen.  The flag records whether the previous
character belonged to such a run (so the run's later characters are
dropped). -/
def collapseRunsAux : Bool → List Char → List Char
  | _, [] => []
  | inRun, c :: cs =>
      if isSpaceOrUnderscore c then
        if inRun then collapseRunsAux true cs else '-' :: collapseRunsAux true cs
      else c :: collapseRunsAux false cs

/-- `.replace(/[\s_]+/g, '-')` on a character list. -/
def collapseRuns (cs : List Char) : List Char := collapseRunsAux false cs

/-- Canonical header key (`processFile`): strip non-printable-ASCII
characters, lowercase, trim, and collapse whitespace/underscore runs to
single hyphens. -/
def normalizeKey (k : String) : String :=
  let clean := k.toList.filter isPrintableAscii
  String.mk (collapseRuns (trimChars (lowerChars clean)))

/-- A raw parsed record: property names and scalar values in JS property
enumeration order (keys unique, as JS object properties are). -/
abbrev RawRecord := List (String × Scalar)

/-- JS property write `obj[k] = v`: update in place when the key exists
(keeping its position), append otherwise. -/
def assocSet {α : Type} : List (String × α) → String → α → List (String × α)
  | [], k, v => [(k, v)]
  | (k0, v0) :: rest, k, v =>
      if k0 == k then (k0, v) :: rest else (k0, v0) :: assocSet rest k v

/-- JS property read `obj[k]` (`none` models `undefined`). -/
def lookupKey {α : Type} : List (String × α) → String → Option α
  | [], _ => none
  | (k0, v0) :: rest, k => if k0 == k then some v0 else lookupKey rest k

/-- Header normalization of one record (`processFile`): every property is
rewritten under its canonical key; colliding canonical keys overwrite the
earlier value. -/
def normalizeRecord (r : RawRecord) : RawRecord :=
  r.foldl (fun acc kv => assocSet acc (normalizeKey kv.1) kv.2) []

/-- `formatDate` from `processFile`: a valid `Date` renders as zero-padded
`DD-MM-YYYY` (month is `getMonth() + 1`), an invalid `Date` as the literal
"Invalid Date", and any non-`Date` value as `String(v ?? '')`. -/
def formatDate : Option Scalar → String
  | some (.date (.valid y m d)) => pad2 d ++ "-" ++ pad2 m ++ "-" ++ toString y
  | some (.date .invalid) => "Invalid Date"
  | v => jsString (jsCoalesceEmpty v)

/-- Value formatting for one canonical column (`processFile` cleaning loop):
the two date-designated columns go through `formatDate`; every other value is
`String(row[key] ?? '')`. -/
def cleanValue (k : String) (v : Scalar) : String :=
  if k == "installed-date" || k == "last-hit" then formatDate (some v)
  else jsString (jsCoalesceEmpty (some v))

/-- A cleaned report row: canonical keys with string values plus the derived
`subbottler` and `bottler` properties. -/
abbrev ReportRow := List (String × String)

/-- The sub-bottler fallback expression of `processFile`:
`String((String(row['sub-bottler']).toUpperCase() === 'NAN' || !row['sub-bottler']) ? (row.bottler ?? '') : row['sub-bottler'])`. -/
def subbottlerValue (r : RawRecord) : String :=
  let sb := lookupKey r "sub-bottler"
  if jsToUpper (jsStringOpt sb) == "NAN" || !(jsTruthy sb) then
    jsString (jsCoalesceEmpty (lookupKey r "bottler"))
  else
    jsStringOpt sb

/-- Row cleaning (`processFile`): format every value under its key, then set
the derived `subbottler` and `bottler` properties. -/
def cleanRow (r : RawRecord) : ReportRow :=
  let base := r.map (fun kv => (kv.1, cleanValue kv.1 kv.2))
  let withSub := assocSet base "subbottler" (subbottlerValue r)
  assocSet withSub "bottler" (jsString (jsCoalesceEmpty (lookupKey r "bottler")))

/-- The normalization pipeline of `processFile` after parsing: reject an
empty dataset, normalize headers, require `bottler` and `sub-bottler` among
the first record's canonical keys (schema check uses only the first record),
then clean every row in order. -/
def processRows (json : List RawRecord) : Except String (List ReportRow) :=
  if json.isEmpty then
    .error "The uploaded file is empty or in an unsupported format."
  else
    let normalizedJson := json.map normalizeRecord
    let availableColumns := (normalizedJson.headD []).map Prod.fst
    if !availableColumns.contains "bottler" then
      .error "The file is missing the required column: 'bottler'."
    else if !availableColumns.contains "sub-bottler" then
      .error "The file is missing the required column: 'sub-bottler'."
    else
      .ok (normalizedJson.map cleanRow)

/-- `row.subbottler` of a cleaned row. -/
def subbottlerOf (r : ReportRow) : String := (lookupKey r "subbottler").getD ""

/-- `row.bottler` of a cleaned row. -/
def bottlerOf (r : ReportRow) : String := (lookupKey r "bottler").getD ""

/-- A sub-bottler group (`SubBottlerGroup` in `types.ts`). -/
structure SubBottlerGroup where
  name : String
  rows : List ReportRow
  deriving DecidableEq, Repr

/-- One step of the grouping `reduce` in the grouping `useEffect` of
`App.tsx`, on the non-colliding path (the key is not an `Object.prototype`
property name; `groupStepE` is the full model): push the row onto its
`subbottler` bucket, creating (appending) the bucket the first time the key
is seen. -/
def groupStep (acc : List (String × List ReportRow)) (row : ReportRow) :
    List (String × List ReportRow) :=
  match lookupKey acc (subbottlerOf row) with
  | some rs => assocSet acc (subbottlerOf row) (rs ++ [row])
  | none => acc ++ [(subbottlerOf row, [row])]

/-- The own property names of `Object.prototype`, the grouping object's
prototype: reading `acc[key]` for one of these names yields an inherited
truthy value even when no own property exists. -/
def protoKeys : List String :=
  ["constructor", "hasOwnProperty", "isPrototypeOf", "propertyIsEnumerable",
    "toLocaleString", "toString", "valueOf", "__defineGetter__", "__defineSetter__",
    "__lookupGetter__", "__lookupSetter__", "__proto__"]

/-- One step of the grouping `reduce` with the prototype chain of the plain
object literal `{}`: when the key has no own property but is an
`Object.prototype` property name, `!acc[key]` is false (the inherited value
is truthy), so the bucket is never created and `acc[key].push(row)` throws
a TypeError. -/
def groupStepE (acc : List (String × List ReportRow)) (row : ReportRow) :
    Except String (List (String × List ReportRow)) :=
  match lookupKey acc (subbottlerOf row) with
  | some rs => .ok (assocSet acc (subbottlerOf row) (rs ++ [row]))
  | none =>
      if subbottlerOf row ∈ protoKeys then
        .error "TypeError: acc[key].push is not a function"
      else .ok (acc ++ [(subbottlerOf row, [row])])

/-- The grouping `reduce` with exception propagation: a thrown TypeError
aborts the `useEffect` (its catch sets the error state and no partition is
produced). -/
def groupPairsEAux : List ReportRow → List (String × List ReportRow) →
    Except String (List (String × List ReportRow))
  | [], acc => .ok acc
  | row :: rest, acc =>
      match groupStepE acc row with
      | .error msg => .error msg
      | .ok acc2 => groupPairsEAux rest acc2

/-- The grouping `reduce` over the whole input, with the prototype chain. -/
def groupPairsE (rows : List ReportRow) : Except String (List (String × List ReportRow)) :=
  groupPairsEAux rows []

/-- The grouping `reduce` on the non-colliding path: build an object
mapping each `subbottler` value to its rows, in input order. -/
def groupPairs (rows : List ReportRow) : List (String × List ReportRow) :=
  rows.foldl groupStep []

/-- Is `s` a canonical array-index property name (`"0"`, `"1"`, …, below
2^32 - 1)?  JS `Object.keys` enumerates such keys first, in ascending
numeric order, before the other string keys in insertion order. -/
def isArrayIndexKey (s : String) : Bool :=
  match decimalNat? s with
  | some n => Nat.repr n == s && n < 4294967295
  | none => false

/-- Numeric value of an array-index key. -/
def arrayIndexVal (s : String) : Nat := (decimalNat? s).getD 0

/-- Insert a pair into a list sorted ascending by `arrayIndexVal` of the
key. -/
def insertIndexSorted (p : String × List ReportRow) :
    List (String × List ReportRow) → List (String × List ReportRow)
  | [] => [p]
  | q :: qs =>
      if arrayIndexVal q.1 ≤ arrayIndexVal p.1 then q :: insertIndexSorted p qs
      else p :: q :: qs

/-- `Object.keys` enumeration order over the grouping object: array-index
keys first, ascending numerically, then the remaining keys in insertion
(first-seen) order. -/
def jsOrderPairs (ps : List (String × List ReportRow)) : List (String × List ReportRow) :=
  (ps.filter fun p => isArrayIndexKey p.1).foldr insertIndexSorted []
    ++ ps.filter fun p => !isArrayIndexKey p.1

/-- `groupedArray` of the grouping `useEffect` on the non-colliding path:
`Object.keys(groups).map(key => ({ name: key, rows: groups[key] }))`. -/
def processedGroups (rows : List ReportRow) : List SubBottlerGroup :=
  (jsOrderPairs (groupPairs rows)).map fun p => ⟨p.1, p.2⟩

/-- `groupedArray` as the program computes it: the `Object.keys` order over
the grouping object, or the grouping TypeError. -/
def processedGroupsE (rows : List ReportRow) : Except String (List SubBottlerGroup) :=
  (groupPairsE rows).map fun gp => (jsOrderPairs gp).map fun p => ⟨p.1, p.2⟩

/-- Record one row's `subbottler` key, keeping first-seen order (used to
state the ordering claims). -/
def seenStep (ks : List String) (row : ReportRow) : List String :=
  if subbottlerOf row ∈ ks then ks else ks ++ [subbottlerOf row]

/-- The distinct `subbottler` keys of the input, in first-seen order (used
to state the ordering claims). -/
def firstSeenKeys (rows : List ReportRow) : List String :=
  rows.foldl seenStep []

/-- Per-group draft lifecycle state: `'loading'` is pending, a stored
`EmailDraft` is ready, `'error'` is failed. -/
inductive DraftState where
  | pending
  | ready (subject body : String)
  | failed
  deriving DecidableEq, Repr

/-- Result of one settled generation call: `generateEmailDraft` resolves
with a draft or rejects with a message. -/
inductive Outcome where
  | success (subject body : String)
  | failure (msg : String)
  deriving DecidableEq, Repr

/-- The state `generateSingleDraft` writes when a call settles: its `try`
stores the draft, its `catch` stores `'error'`.  Every error is caught
inside `generateSingleDraft`, so the call itself never rejects. -/
def applyOutcome : Outcome → DraftState
  | .success s b => .ready s b
  | .failure _ => .failed

/-- `initialDrafts` of the grouping `useEffect`: every group name is mapped
to `'loading'` (pending). -/
def initialDrafts (gs : List SubBottlerGroup) : List (String × DraftState) :=
  gs.foldl (fun st g => assocSet st g.name DraftState.pending) []

/-- Apply settled generation calls to the draft store in settlement order;
each completion writes only its own group's entry
(`setEmailDrafts(prev => ({ ...prev, [group.name]: ... }))`). -/
def runCompletions (init : List (String × DraftState)) (cs : List (String × Outcome)) :
    List (String × DraftState) :=
  cs.foldl (fun st c => assocSet st c.1 (applyOutcome c.2)) init

/-- `BATCH_SIZE` of `generateAllDrafts`. -/
def BATCH_SIZE : Nat := 5

/-- `DELAY_BETWEEN_BATCHES_MS` of `generateAllDrafts`. -/
def DELAY_BETWEEN_BATCHES_MS : Nat := 20000

/-- The chunking loop of `generateAllDrafts`:
`for (let i = 0; i < length; i += BATCH_SIZE) batches.push(slice(i, i + BATCH_SIZE))`.
The loop is only ever run with `k = BATCH_SIZE = 5`; the model returns `[]`
for the degenerate size 0 (where the JS loop would not terminate). -/
def chunksOf {α : Type} (k : Nat) (l : List α) : List (List α) :=
  if h : k = 0 then []
  else
    match l with
    | [] => []
    | a :: rest => (a :: rest).take k :: chunksOf k ((a :: rest).drop k)
termination_by l.length
decreasing_by
  simp only [List.length_drop, List.length_cons]
  exact Nat.sub_lt (Nat.succ_pos _) (Nat.pos_of_ne_zero h)

/-- One step of the batch orchestrator's schedule: issue one whole chunk of
generation calls concurrently and await their joint settlement
(`await Promise.all(batch.map(generateSingleDraft))`), or sleep between
chunks. -/
inductive OrchEvent where
  | genBatch (names : List String)
  | pause (ms : Nat)
  deriving DecidableEq, Repr

/-- The schedule of `generateAllDrafts` over a chunk list: chunks run
strictly sequentially; a pause follows every chunk except the last
(`if (i < batches.length - 1) await sleep(DELAY_BETWEEN_BATCHES_MS)`). -/
def scheduleOf : List (List SubBottlerGroup) → List OrchEvent
  | [] => []
  | [b] => [.genBatch (b.map SubBottlerGroup.name)]
  | b :: b2 :: rest =>
      .genBatch (b.map SubBottlerGroup.name) :: .pause DELAY_BETWEEN_BATCHES_MS ::
        scheduleOf (b2 :: rest)

/-- `generateAllDrafts`: chunk the group list and run the paced schedule. -/
def generateAllTrace (groups : List SubBottlerGroup) : List OrchEvent :=
  scheduleOf (chunksOf BATCH_SIZE groups)

/-- Number of pauses in a schedule. -/
def countPauses : List OrchEvent → Nat
  | [] => 0
  | .pause _ :: es => countPauses es + 1
  | .genBatch _ :: es => countPauses es

/-- The names issued by a generation event (`none` for a pause); used to
state which calls a schedule performs. -/
def eventBatchNames : OrchEvent → Option (List String)
  | .genBatch ns => some ns
  | .pause _ => none

/-- The chunk lengths produced by the slicing loop, as a function of the
input length alone. -/
def chunkLens (k : Nat) (n : Nat) : List Nat :=
  if hk : k = 0 then []
  else if h : n = 0 then []
  else min k n :: chunkLens k (n - k)
termination_by n
decreasing_by
  exact Nat.sub_lt (Nat.pos_of_ne_zero h) (Nat.pos_of_ne_zero hk)

/-- Store events one group's entry undergoes: `start` is the `'loading'`
write at the top of `generateSingleDraft`; `complete` is the settlement
write. -/
inductive GenEvent where
  | start
  | complete (o : Outcome)
  deriving DecidableEq, Repr

/-- Effect of one event on the group's entry: both writes are blind
overwrites, independent of the current state. -/
def stepEv : DraftState → GenEvent → DraftState
  | _, .start => .pending
  | _, .complete o => applyOutcome o

/-- The state history from `s0` under an event list. -/
def statesFrom (s0 : DraftState) : List GenEvent → List DraftState
  | [] => [s0]
  | e :: es => s0 :: statesFrom (stepEv s0 e) es

/-- The transitions the lifecycle claim allows. -/
def allowedTransition : DraftState → DraftState → Bool
  | .pending, .ready _ _ => true
  | .pending, .failed => true
  | .ready _ _, .pending => true
  | .failed, .pending => true
  | _, _ => false

/-- A step is safe when it is a self-loop or an allowed transition. -/
def SafeStep (a b : DraftState) : Prop := a = b ∨ allowedTransition a b = true

instance : DecidableRel SafeStep := fun a b =>
  decidable_of_iff (a = b ∨ allowedTransition a b = true) Iff.rfl

/-- Does the event list alternate `start, complete, start, complete, …`
(starting with `start`)?  This holds exactly when generation calls for the
group do not overlap: each call's settlement write lands before the next
call's `'loading'` write.  The flag is true when a `start` is expected. -/
def alternates : Bool → List GenEvent → Bool
  | _, [] => true
  | true, .start :: es => alternates false es
  | true, .complete _ :: _ => false
  | false, .complete _ :: es => alternates true es
  | false, .start :: _ => false

/-- Decimal value of a digit list (most significant first). -/
def digitsVal (cs : List Char) : Nat :=
  cs.foldl (fun acc c => acc * 10 + (c.toNat - 48)) 0

/-- A JS number other than `NaN` (which `none` models at use sites):
finite values are exact rationals — IEEE-754 rounding is not modelled —
and the infinities are explicit. -/
inductive JSNum where
  | negInf
  | val (q : Rat)
  | posInf
  deriving DecidableEq, Repr

/-- Value of a digit in bases up to 16. -/
def hexDigitVal (c : Char) : Nat :=
  if c.isDigit then c.toNat - 48
  else if 'a' ≤ c && c ≤ 'f' then c.toNat - 87
  else if 'A' ≤ c && c ≤ 'F' then c.toNat - 55
  else 0

/-- A hexadecimal digit. -/
def isHexDigit (c : Char) : Bool :=
  c.isDigit || ('a' ≤ c && c ≤ 'f') || ('A' ≤ c && c ≤ 'F')

/-- Digit-list value in base `b` (most significant first). -/
def digitsValBase (b : Nat) (cs : List Char) : Nat :=
  cs.foldl (fun acc c => acc * b + hexDigitVal c) 0

/-- The exponent part of a JS decimal literal (after the `e`/`E`). -/
def jsExpPart : List Char → Option Int
  | '+' :: ds =>
      if !ds.isEmpty && ds.all (fun c => c.isDigit) then some (digitsVal ds) else none
  | '-' :: ds =>
      if !ds.isEmpty && ds.all (fun c => c.isDigit) then some (-(digitsVal ds : Int)) else none
  | ds => if !ds.isEmpty && ds.all (fun c => c.isDigit) then some (digitsVal ds) else none

/-- `10 ^ ex` as a rational. -/
def expFactor (ex : Int) : Rat :=
  if 0 ≤ ex then (10 : Rat) ^ ex.toNat else 1 / (10 : Rat) ^ (-ex).toNat

/-- An unsigned JS decimal literal: digits, optional fraction, optional
exponent (`none` = not a number). -/
def jsDecimal (cs : List Char) : Option Rat :=
  let ip := cs.takeWhile fun c => c.isDigit
  let rest1 := cs.dropWhile fun c => c.isDigit
  match rest1 with
  | [] => if ip.isEmpty then none else some (digitsVal ip)
  | '.' :: rest2 =>
      let fp := rest2.takeWhile fun c => c.isDigit
      let rest3 := rest2.dropWhile fun c => c.isDigit
      if ip.isEmpty && fp.isEmpty then none
      else
        let mant : Rat := (digitsVal ip : Rat) + (digitsVal fp : Rat) / (10 : Rat) ^ fp.length
        match rest3 with
        | [] => some mant
        | e :: rest4 =>
            if e == 'e' || e == 'E' then (jsExpPart rest4).map fun ex => mant * expFactor ex
            else none
  | e :: rest2 =>
      if (e == 'e' || e == 'E') && !ip.isEmpty then
        (jsExpPart rest2).map fun ex => (digitsVal ip : Rat) * expFactor ex
      else none

/-- A JS decimal literal or `Infinity`, the sign already split off. -/
def jsUnsignedNum (cs : List Char) (neg : Bool) : Option JSNum :=
  if cs = "Infinity".toList then some (if neg then .negInf else .posInf)
  else (jsDecimal cs).map fun q => .val (if neg then -q else q)

/-- A signed JS decimal literal or `Infinity` (the sign does not apply to
the radix-prefixed forms, which JS treats as unsigned). -/
def jsSignedNum : List Char → Option JSNum
  | '+' :: rest => jsUnsignedNum rest false
  | '-' :: rest => jsUnsignedNum rest true
  | cs => jsUnsignedNum cs false

/-- JS `Number(s)` on a string (`none` models `NaN`): a trimmed-empty
string is 0; unsigned hex/octal/binary literals, `±Infinity`, and signed
decimals with optional fraction and exponent.  Finite values are exact
rationals (IEEE-754 rounding is not modelled). -/
def jsNumber (s : String) : Option JSNum :=
  let t := (jsTrim s).toList
  if t.isEmpty then some (.val 0)
  else
    match t with
    | '0' :: c :: rest =>
        if c == 'x' || c == 'X' then
          if !rest.isEmpty && rest.all isHexDigit then some (.val (digitsValBase 16 rest))
          else none
        else if c == 'o' || c == 'O' then
          if !rest.isEmpty && rest.all (fun d => '0' ≤ d && d ≤ '7') then
            some (.val (digitsValBase 8 rest))
          else none
        else if c == 'b' || c == 'B' then
          if !rest.isEmpty && rest.all (fun d => d == '0' || d == '1') then
            some (.val (digitsValBase 2 rest))
          else none
        else jsSignedNum t
    | _ => jsSignedNum t

/-- The sort key of `generateEmailDraft`:
`Number(row["days from last hit"]) || 0` — a missing property or a `NaN`
value gives 0 (`-0` is also falsy; it coincides with 0 here). -/
def sortVal (r : ReportRow) : JSNum :=
  match lookupKey r "days from last hit" with
  | none => .val 0
  | some s => (jsNumber s).getD (.val 0)

/-- "`a` ranks strictly below `b`" for the comparator `valB - valA`: the
sort algorithm maps a `NaN` comparator result (two equal infinities) to 0,
i.e. equal. -/
def jsNumLt : JSNum → JSNum → Bool
  | .negInf, .negInf => false
  | .negInf, .val _ => true
  | .negInf, .posInf => true
  | .val _, .negInf => false
  | .val q, .val q2 => q < q2
  | .val _, .posInf => true
  | .posInf, _ => false

/-- Stable insertion of a row into a list sorted descending by `sortVal`:
rows with strictly greater key stay ahead; among equal keys the earlier
input row stays first. -/
def insertDesc (x : ReportRow) : List ReportRow → List ReportRow
  | [] => [x]
  | y :: ys =>
      if jsNumLt (sortVal x) (sortVal y) then y :: insertDesc x ys else x :: y :: ys

/-- `[...data].sort((a, b) => valB - valA)` of `generateEmailDraft`: the JS
sort is stable, so the result is the unique stable descending reordering by
`sortVal`, realized here as a stable insertion sort of a copy. -/
def draftSortedRows (data : List ReportRow) : List ReportRow :=
  data.foldr insertDesc []

/-- The rows the group still holds after `generateEmailDraft` builds its
prompt: the source sorts a spread copy (`[...data]`), so the stored
sequence is returned unchanged. -/
def rowsAfterDraftCall (data : List ReportRow) : List ReportRow := data

/-- JS template-literal interpolation `${row[h]}` of a possibly-absent
string property: an absent property renders "undefined". -/
def jsTemplateStr : Option String → String
  | none => "undefined"
  | some s => s

/-- `dataToHtmlTable` of the generation service. -/
def dataToHtmlTable (data : List ReportRow) : String :=
  match data with
  | [] => "<p>No data available for this report.</p>"
  | first :: rest =>
      let headers := first.map Prod.fst
      let headerRow := "<tr>"
        ++ String.join (headers.map fun h =>
            "<th style=\"border: 1px solid #ddd; padding: 8px; text-align: left; background-color: #f2f2f2; color: #333;\">"
              ++ h ++ "</th>")
        ++ "</tr>"
      let bodyRows := String.join ((first :: rest).map fun row =>
        "<tr>"
          ++ String.join (headers.map fun h =>
              "<td style=\"border: 1px solid #ddd; padding: 8px;\">"
                ++ jsTemplateStr (lookupKey row h) ++ "</td>")
          ++ "</tr>")
      "<table style=\"border-collapse: collapse; width: 100%; font-family: sans-serif; font-size: 14px;\"><thead>"
        ++ headerRow ++ "</thead><tbody>" ++ bodyRows ++ "</tbody></table>"

/-- The HTML table embedded in the outbound prompt: built from the sorted
copy of the group's rows. -/
def promptTableOf (data : List ReportRow) : String :=
  dataToHtmlTable (draftSortedRows data)

/-- One character of the regex class `[^\s@]`. -/
def isEmailChar (c : Char) : Bool := !c.isWhitespace && c != '@'

/-- The recipient regex `/^[^\s@]+@[^\s@]+\.[^\s@]+$/` as an executable
matcher: exactly one `@`; a non-empty all-`[^\s@]` local part; a domain
that is all `[^\s@]` and has a `.` that is neither its first nor its last
character. -/
def emailRegexTest (s : String) : Bool :=
  match splitChar '@' s with
  | [lp, domain] =>
      lp != "" && lp.toList.all isEmailChar && domain.toList.all isEmailChar &&
        ((domain.toList.drop 1).dropLast.contains '.')
  | _ => false

/-- `getValidEmails` (`ReportDashboard.tsx`): a missing or empty mapping
gives no recipients; otherwise split on commas, trim each candidate, and
keep the non-empty entries that match the pattern. -/
def getValidEmails : Option String → List String
  | none => []
  | some s =>
      if s == "" then []
      else ((splitChar ',' s).map jsTrim).filter fun e => e != "" && emailRegexTest e

/-- `validateEmails` of `EmailMappingEditor`: an all-whitespace string is
allowed (no recipients); otherwise every non-empty trimmed entry must match
the pattern. -/
def validateEmails (emails : String) : Bool :=
  if jsTrim emails == "" then true
  else (((splitChar ',' emails).map jsTrim).filter fun e => e != "").all emailRegexTest

/-- The `trimmedEmails` normalization of `handleSave`: split on commas,
trim, drop empties, re-join with ", " (whitespace normalized around
commas). -/
def normalizeRecipientString (current : String) : String :=
  String.intercalate ", " (((splitChar ',' current).map jsTrim).filter fun e => e != "")

/-- `handleSave` of `EmailMappingEditor`: persist the normalized string when
it validates; reject the whole edit otherwise (`none`). -/
def handleSave (current : String) : Option String :=
  let trimmedEmails := normalizeRecipientString current
  if validateEmails trimmedEmails then some trimmedEmails else none

/-- `cellData.replace(/"/g, '""')`: double every double quote. -/
def doubleQuotes : List Char → List Char
  | [] => []
  | c :: cs => if c == '"' then '"' :: '"' :: doubleQuotes cs else c :: doubleQuotes cs

/-- Field serialization of `reportRowsToCSV`: double embedded quotes, and
wrap in quotes exactly when the raw field contains a comma, newline or
quote. -/
def escapeCell (s : String) : String :=
  let escaped := String.mk (doubleQuotes s.toList)
  if s.toList.contains ',' || s.toList.contains '\n' || s.toList.contains '"' then
    "\"" ++ escaped ++ "\""
  else escaped

/-- `reportRowsToCSV` (`ReportDashboard.tsx`): header line from the first
row's keys, then one line per row with every field escaped, all joined by
newlines. -/
def reportRowsToCSV (rows : List ReportRow) : String :=
  match rows with
  | [] => ""
  | first :: rest =>
      let headers := first.map Prod.fst
      let headerRow := String.intercalate "," headers
      let bodyRows := (first :: rest).map fun row =>
        String.intercalate "," (headers.map fun h => escapeCell ((lookupKey row h).getD ""))
      String.intercalate "\n" (headerRow :: bodyRows)

/-- Undo quote doubling (reader side of the round-trip property). -/
def undoubleQuotes : List Char → List Char
  | [] => []
  | [c] => [c]
  | c1 :: c2 :: cs =>
      if c1 = '"' ∧ c2 = '"' then '"' :: undoubleQuotes cs
      else c1 :: undoubleQuotes (c2 :: cs)

/-- Modelled from the spec: the "re-splitting" reader of the CSV round-trip
property — an RFC4180-style field reader that strips one layer of
surrounding quotes and undoes quote doubling, and returns an unquoted field
verbatim.  (The repository contains no CSV reader; this is the
specification's notion of re-splitting a serialized field.) -/
def csvFieldRead (s : String) : String :=
  match s.toList with
  | '"' :: rest =>
      if rest.getLast? == some '"' then String.mk (undoubleQuotes rest.dropLast)
      else s
  | _ => s

theorem lookupKey_assocSet_self {α : Type} (l : List (String × α)) (k : String) (v : α) :
    lookupKey (assocSet l k v) k = some v := by
  induction l with
  | nil => simp [assocSet, lookupKey]
  | cons hd tl ih =>
      obtain ⟨k0, v0⟩ := hd
      by_cases h : k0 = k
      · simp [assocSet, lookupKey, h]
      · simp only [assocSet, lookupKey, beq_iff_eq, h, if_false, ite_false]
        exact ih

theorem lookupKey_assocSet_ne {α : Type} (l : List (String × α)) (k k1 : String) (v : α)
    (hne : k1 ≠ k) : lookupKey (assocSet l k v) k1 = lookupKey l k1 := by
  induction l with
  | nil =>
      have : ¬k = k1 := fun h => hne h.symm
      simp [assocSet, lookupKey, this]
  | cons hd tl ih =>
      obtain ⟨k0, v0⟩ := hd
      by_cases h : k0 = k
      · subst h
        have : ¬k0 = k1 := fun h => hne h.symm
        simp [assocSet, lookupKey, this]
      · simp only [assocSet, beq_iff_eq, h, ite_false, lookupKey]
        by_cases h1 : k0 = k1
        · simp [h1]
        · simp only [beq_iff_eq, h1, ite_false]
          exact ih

theorem lookupKey_append {α : Type} (l1 l2 : List (String × α)) (k : String) :
    lookupKey (l1 ++ l2) k = ((lookupKey l1 k).map some).getD (lookupKey l2 k) := by
  induction l1 with
  | nil => rfl
  | cons hd tl ih =>
      obtain ⟨k0, v0⟩ := hd
      by_cases h : k0 = k
      · simp [lookupKey, h]
      · simpa [lookupKey, h] using ih

theorem subbottlerOf_cleanRow (r : RawRecord) :
    subbottlerOf (cleanRow r) = subbottlerValue r := by
  unfold cleanRow subbottlerOf
  rw [lookupKey_assocSet_ne _ _ _ _ (by decide), lookupKey_assocSet_self]
  rfl

theorem bottlerOf_cleanRow (r : RawRecord) :
    bottlerOf (cleanRow r) = jsString (jsCoalesceEmpty (lookupKey r "bottler")) := by
  unfold cleanRow bottlerOf
  rw [lookupKey_assocSet_self]
  rfl

/-- C3: the normalizer's value formatter for the two date-designated
canonical columns (`installed-date`, `last-hit`) is `formatDate`, which
renders every valid date as zero-padded `DD-MM-YYYY` (e.g. the date
2024-03-05 becomes "05-03-2024"), renders an invalid date as the literal
string "Invalid Date", and stringifies every non-date value normally
(`String(v ?? '')`). -/
theorem claim_C3 :
    (∀ v : Scalar, cleanValue "installed-date" v = formatDate (some v) ∧
        cleanValue "last-hit" v = formatDate (some v)) ∧
    (∀ y m d : Nat, formatDate (some (.date (.valid y m d))) =
        pad2 d ++ "-" ++ pad2 m ++ "-" ++ toString y) ∧
    (∀ n : Nat, n < 100 → (pad2 n).length = 2) ∧
    formatDate (some (.date (.valid 2024 3 5))) = "05-03-2024" ∧
    formatDate (some (.date .invalid)) = "Invalid Date" ∧
    (∀ s : String, formatDate (some (.str s)) = s) ∧
    formatDate (some .null) = "" ∧
    (∀ n : Int, formatDate (some (.num n)) = toString n) := by
  refine ⟨fun v => ⟨rfl, rfl⟩, fun y m d => rfl, by decide, rfl, rfl, fun s => rfl, rfl,
    fun n => rfl⟩

/-- Witness for C3 at a concrete padded day. -/
theorem claim_C3_witness : (pad2 7).length = 2 :=
  claim_C3.2.2.1 7 (by decide)

/-- C10: when two raw headers of one record normalize to the same canonical
key, only the later-enumerated header's value survives (the record's
canonical-key lookup is the last matching raw entry); hence a normalized
record can have strictly fewer keys than its raw record — e.g. "Sub
Bottler" and "sub_bottler" collapse to one `sub-bottler` entry holding the
second value — while the record (row) count is preserved. -/
theorem claim_C10 :
    (∀ json : List RawRecord, (json.map normalizeRecord).length = json.length) ∧
    (∀ (rec : RawRecord) (nk : String),
        lookupKey (normalizeRecord rec) nk =
          ((rec.filter fun p => normalizeKey p.1 == nk).getLast?).map Prod.snd) ∧
    normalizeRecord [("Sub Bottler", .str "A"), ("sub_bottler", .str "B")] =
      [("sub-bottler", .str "B")] ∧
    (normalizeRecord [("Sub Bottler", .str "A"), ("sub_bottler", .str "B")]).length <
      ([("Sub Bottler", Scalar.str "A"), ("sub_bottler", Scalar.str "B")] : RawRecord).length := by
  refine ⟨fun json => json.length_map _, ?_, by decide, by decide⟩
  intro rec nk
  unfold normalizeRecord
  induction rec using List.reverseRecOn with
  | nil => rfl
  | append_singleton tl kv ih =>
      obtain ⟨k, v⟩ := kv
      rw [List.foldl_append, List.filter_append]
      simp only [List.foldl_cons, List.foldl_nil]
      by_cases h : normalizeKey k = nk
      · rw [List.filter_cons_of_pos (by simpa using h), List.filter_nil,
          List.getLast?_concat, h, lookupKey_assocSet_self]
        rfl
      · rw [List.filter_cons_of_neg (by simpa using h), List.filter_nil, List.append_nil,
          lookupKey_assocSet_ne _ _ _ _ (fun hh => h hh.symm)]
        exact ih

/-- C1 fails as stated: the record with empty `bottler` and empty
`sub-bottler` is accepted by the Row Normalizer (both required canonical
columns are present), yet the produced row's `subbottler` is the empty
string — the fallback copies the empty `bottler` — contradicting
"`subbottler` is a non-empty string". -/
theorem claim_C1_counterexample :
    processRows [[("bottler", Scalar.str ""), ("sub-bottler", Scalar.str "")]] =
      .ok [[("bottler", ""), ("sub-bottler", ""), ("subbottler", "")]] ∧
    subbottlerOf [("bottler", ""), ("sub-bottler", ""), ("subbottler", "")] = "" :=
  ⟨rfl, rfl⟩

/-- C1 (amended): every accepted raw record sequence is cleaned row by row;
when the record's canonical `sub-bottler` value is absent, `null`, the
empty string, the number 0 (JS-falsy), or a string case-insensitively equal
to "NAN", the produced `subbottler` equals the produced `bottler` field —
which may itself be empty or "NAN" — and otherwise a non-empty
non-"NAN" string value is kept verbatim. -/
theorem claim_C1_amended :
    (∀ (json : List RawRecord) (rows : List ReportRow), processRows json = .ok rows →
        rows = json.map fun rec => cleanRow (normalizeRecord rec)) ∧
    (∀ n : RawRecord,
        (lookupKey n "sub-bottler" = none ∨ lookupKey n "sub-bottler" = some .null ∨
            lookupKey n "sub-bottler" = some (.str "") ∨
            lookupKey n "sub-bottler" = some (.num 0) ∨
            (∃ s, lookupKey n "sub-bottler" = some (.str s) ∧ jsToUpper s = "NAN")) →
        subbottlerOf (cleanRow n) = bottlerOf (cleanRow n)) ∧
    (∀ (n : RawRecord) (s : String),
        lookupKey n "sub-bottler" = some (.str s) → s ≠ "" → jsToUpper s ≠ "NAN" →
        subbottlerOf (cleanRow n) = s) := by
  refine ⟨?_, ?_, ?_⟩
  · intro json rows h
    simp only [processRows] at h
    split at h
    · exact Except.noConfusion h
    · split at h
      · exact Except.noConfusion h
      · split at h
        · exact Except.noConfusion h
        · injection h with h
          rw [← h, List.map_map]
          rfl
  · intro n hc
    rw [subbottlerOf_cleanRow, bottlerOf_cleanRow]
    unfold subbottlerValue
    rcases hc with h | h | h | h | ⟨s, h, hs⟩ <;> rw [h]
    · simp [jsTruthy]
    · simp [jsTruthy]
    · simp [jsTruthy]
    · simp [jsTruthy]
    · simp [jsTruthy, jsStringOpt, jsString, hs]
  · intro n s h hne hnan
    rw [subbottlerOf_cleanRow]
    unfold subbottlerValue
    rw [h]
    have h1 : (jsToUpper (jsStringOpt (some (.str s))) == "NAN") = false := by
      simp [jsStringOpt, jsString, hnan]
    have h2 : jsTruthy (some (.str s)) = true := by simp [jsTruthy, hne]
    simp [h1, h2, jsStringOpt, jsString]
    exact fun hh => absurd hh hnan

/-- Witness for the amended C1 at concrete records: a case-insensitive
"NaN" sub-bottler falls back to the bottler value; an ordinary sub-bottler
is kept. -/
theorem claim_C1_witness :
    subbottlerOf (cleanRow [("sub-bottler", Scalar.str "NaN"), ("bottler", Scalar.str "ACME")]) =
      bottlerOf (cleanRow [("sub-bottler", Scalar.str "NaN"), ("bottler", Scalar.str "ACME")]) ∧
    subbottlerOf (cleanRow [("sub-bottler", Scalar.str "East"), ("bottler", Scalar.str "ACME")]) =
      "East" :=
  ⟨claim_C1_amended.2.1 _ (Or.inr (Or.inr (Or.inr (Or.inr ⟨"NaN", rfl, rfl⟩)))),
   claim_C1_amended.2.2 _ "East" rfl (by decide) (by decide)⟩

theorem lookupKey_runCompletions_not_mem (init : List (String × DraftState))
    (cs : List (String × Outcome)) (n : String) (hn : n ∉ cs.map Prod.fst) :
    lookupKey (runCompletions init cs) n = lookupKey init n := by
  induction cs generalizing init with
  | nil => rfl
  | cons hd tl ih =>
      obtain ⟨n0, o0⟩ := hd
      simp only [List.map_cons, List.mem_cons, not_or] at hn
      unfold runCompletions at ih ⊢
      rw [List.foldl_cons, ih _ hn.2]
      exact lookupKey_assocSet_ne _ _ _ _ hn.1

theorem lookupKey_runCompletions_mem (init : List (String × DraftState))
    (cs : List (String × Outcome)) (n : String) (o : Outcome)
    (hnd : (cs.map Prod.fst).Nodup) (hmem : (n, o) ∈ cs) :
    lookupKey (runCompletions init cs) n = some (applyOutcome o) := by
  induction cs generalizing init with
  | nil => cases hmem
  | cons hd tl ih =>
      obtain ⟨n0, o0⟩ := hd
      simp only [List.map_cons, List.nodup_cons] at hnd
      unfold runCompletions at ih ⊢
      rw [List.foldl_cons]
      rcases List.mem_cons.mp hmem with heq | htl
      · cases heq
        have hnm := lookupKey_runCompletions_not_mem (assocSet init n (applyOutcome o)) tl n hnd.1
        unfold runCompletions at hnm
        rw [hnm]
        exact lookupKey_assocSet_self _ _ _
      · exact ih _ hnd.2 htl

/-- C5: per-group failure isolation.  Every settled generation call writes
only its own group's entry, and `generateSingleDraft` catches every error
internally, so with one completion per group the final state of each group
is determined by its own outcome alone — in particular, whenever group Y's
call succeeds, Y ends `ready` regardless of group X's failure and of the
order in which the calls settle (the completion list is an arbitrary
settlement order). -/
theorem claim_C5 :
    (∀ (init : List (String × DraftState)) (cs : List (String × Outcome)) (n : String)
        (o : Outcome), (cs.map Prod.fst).Nodup → (n, o) ∈ cs →
        lookupKey (runCompletions init cs) n = some (applyOutcome o)) ∧
    (∀ (init : List (String × DraftState)) (cs : List (String × Outcome))
        (x y s b mx : String), (cs.map Prod.fst).Nodup →
        (x, Outcome.failure mx) ∈ cs → (y, Outcome.success s b) ∈ cs →
        lookupKey (runCompletions init cs) y = some (DraftState.ready s b)) := by
  refine ⟨fun init cs n o hnd hm => lookupKey_runCompletions_mem init cs n o hnd hm,
    fun init cs x y s b mx hnd _ hy => ?_⟩
  exact lookupKey_runCompletions_mem init cs y (Outcome.success s b) hnd hy

/-- Witness for C5: X fails with a quota error, Y succeeds, and Y still
ends `ready` (shown here with X's completion settling first). -/
theorem claim_C5_witness :
    lookupKey
      (runCompletions []
        [("X", Outcome.failure "quota"), ("Y", Outcome.success "Subj" "Body")]) "Y" =
      some (DraftState.ready "Subj" "Body") :=
  claim_C5.2 [] _ "X" "Y" "Subj" "Body" "quota" (by decide) (by decide) (by decide)

theorem insertDesc_perm (x : ReportRow) (l : List ReportRow) :
    (insertDesc x l).Perm (x :: l) := by
  induction l with
  | nil => exact List.Perm.refl _
  | cons y ys ih =>
      unfold insertDesc
      by_cases h : jsNumLt (sortVal x) (sortVal y) = true
      · rw [if_pos h]
        exact (ih.cons y).trans (List.Perm.swap x y ys)
      · rw [if_neg h]

theorem mem_insertDesc {x r : ReportRow} {l : List ReportRow} (h : r ∈ insertDesc x l) :
    r = x ∨ r ∈ l := by
  have := (insertDesc_perm x l).mem_iff.mp h
  simpa using this

theorem jsNumLt_asymm {a b : JSNum} (h : jsNumLt a b = true) : jsNumLt b a = false := by
  cases a <;> cases b <;> simp_all [jsNumLt]
  exact le_of_lt h

theorem jsNumLt_false_trans {a b c : JSNum} (h1 : jsNumLt a b = false)
    (h2 : jsNumLt b c = false) : jsNumLt a c = false := by
  cases a <;> cases b <;> cases c <;> simp_all [jsNumLt]
  exact le_trans h2 h1

theorem pairwise_insertDesc (x : ReportRow) (l : List ReportRow)
    (hl : l.Pairwise fun a b => jsNumLt (sortVal a) (sortVal b) = false) :
    (insertDesc x l).Pairwise fun a b => jsNumLt (sortVal a) (sortVal b) = false := by
  induction l with
  | nil => simp [insertDesc]
  | cons y ys ih =>
      rcases List.pairwise_cons.mp hl with ⟨hy, hys⟩
      unfold insertDesc
      by_cases h : jsNumLt (sortVal x) (sortVal y) = true
      · rw [if_pos h]
        refine List.pairwise_cons.mpr ⟨?_, ih hys⟩
        intro b hb
        rcases mem_insertDesc hb with rfl | hbl
        · exact jsNumLt_asymm h
        · exact hy b hbl
      · rw [if_neg h]
        have hf : jsNumLt (sortVal x) (sortVal y) = false := Bool.eq_false_iff.mpr h
        refine List.pairwise_cons.mpr ⟨?_, hl⟩
        intro b hb
        rcases List.mem_cons.mp hb with rfl | hbl
        · exact hf
        · exact jsNumLt_false_trans hf (hy b hbl)

theorem mem_collapseRunsAux {c : Char} :
    ∀ (b : Bool) (cs : List Char), c ∈ collapseRunsAux b cs →
      c = '-' ∨ isSpaceOrUnderscore c = false := by
  intro b cs
  induction cs generalizing b with
  | nil =>
      intro h
      cases h
  | cons c0 cs0 ih =>
      intro h
      by_cases h0 : isSpaceOrUnderscore c0 = true
      · cases b with
        | true =>
            simp only [collapseRunsAux, h0, if_true] at h
            exact ih _ h
        | false =>
            simp only [collapseRunsAux, h0, if_true, if_false] at h
            rcases List.mem_cons.mp h with rfl | h
            · exact Or.inl rfl
            · exact ih _ h
      · simp only [collapseRunsAux, h0, if_false] at h
        rcases List.mem_cons.mp h with rfl | h
        · exact Or.inr (Bool.eq_false_iff.mpr h0)
        · exact ih _ h

theorem normalizeKey_no_space (k : String) : ' ' ∉ (normalizeKey k).toList := by
  intro hmem
  have hmem2 : ' ' ∈ collapseRunsAux false
      (trimChars (lowerChars (k.toList.filter isPrintableAscii))) := hmem
  rcases mem_collapseRunsAux false _ hmem2 with h | h
  · exact absurd h (by decide)
  · exact absurd h (by decide)

theorem lookupKey_eq_none_iff {α : Type} (l : List (String × α)) (k : String) :
    lookupKey l k = none ↔ k ∉ l.map Prod.fst := by
  induction l with
  | nil => simp [lookupKey]
  | cons hd tl ih =>
      obtain ⟨k0, v0⟩ := hd
      by_cases h : k0 = k
      · subst h
        simp [lookupKey]
      · simp only [lookupKey, beq_iff_eq, h, if_false, List.map_cons, List.mem_cons, ih]
        constructor
        · rintro hnot (hk | hk)
          · exact h hk.symm
          · exact hnot hk
        · intro hnot hk
          exact hnot (Or.inr hk)

theorem mem_map_fst_assocSet {α : Type} {l : List (String × α)} {k k1 : String} {v : α}
    (h : k1 ∈ (assocSet l k v).map Prod.fst) : k1 ∈ l.map Prod.fst ∨ k1 = k := by
  induction l with
  | nil =>
      simp only [assocSet, List.map_cons, List.map_nil, List.mem_cons] at h
      rcases h with h | h
      · exact Or.inr h
      · cases h
  | cons hd tl ih =>
      obtain ⟨k0, v0⟩ := hd
      by_cases hk : k0 = k
      · subst hk
        simp only [assocSet, beq_self_eq_true, if_true, List.map_cons, List.mem_cons] at h ⊢
        rcases h with h | h
        · exact Or.inl (Or.inl h)
        · exact Or.inl (Or.inr h)
      · simp only [assocSet, beq_iff_eq, hk, if_false, List.map_cons, List.mem_cons] at h ⊢
        rcases h with h | h
        · exact Or.inl (Or.inl h)
        · rcases ih h with h2 | h2
          · exact Or.inl (Or.inr h2)
          · exact Or.inr h2

theorem keys_normalizeRecord_no_space (rec : RawRecord) :
    ∀ k1 ∈ (normalizeRecord rec).map Prod.fst, ' ' ∉ k1.toList := by
  unfold normalizeRecord
  suffices h : ∀ acc : RawRecord, (∀ k1 ∈ acc.map Prod.fst, ' ' ∉ k1.toList) →
      ∀ k1 ∈ (rec.foldl (fun a kv => assocSet a (normalizeKey kv.1) kv.2) acc).map Prod.fst,
        ' ' ∉ k1.toList by
    refine h [] ?_
    intro k1 hk1
    cases hk1
  induction rec with
  | nil =>
      intro acc hacc
      exact hacc
  | cons kv rest ih =>
      intro acc hacc
      rw [List.foldl_cons]
      refine ih _ ?_
      intro k1 hk1
      rcases mem_map_fst_assocSet hk1 with h | h
      · exact hacc k1 h
      · rw [h]
        exact normalizeKey_no_space kv.1

theorem keys_cleanRow {n : RawRecord} {k1 : String}
    (h : k1 ∈ (cleanRow n).map Prod.fst) :
    k1 ∈ n.map Prod.fst ∨ k1 = "subbottler" ∨ k1 = "bottler" := by
  unfold cleanRow at h
  rcases mem_map_fst_assocSet h with h | h
  · rcases mem_map_fst_assocSet h with h | h
    · rw [List.map_map] at h
      exact Or.inl h
    · exact Or.inr (Or.inl h)
  · exact Or.inr (Or.inr h)

theorem daysKey_not_in_cleanRow (rec : RawRecord) :
    lookupKey (cleanRow (normalizeRecord rec)) "days from last hit" = none := by
  rw [lookupKey_eq_none_iff]
  intro hmem
  rcases keys_cleanRow hmem with h | h | h
  · exact keys_normalizeRecord_no_space rec _ h (by decide)
  · exact absurd h (by decide)
  · exact absurd h (by decide)

theorem sortVal_cleanRow (rec : RawRecord) :
    sortVal (cleanRow (normalizeRecord rec)) = JSNum.val 0 := by
  unfold sortVal
  rw [daysKey_not_in_cleanRow]

theorem draftSortedRows_allZero {data : List ReportRow}
    (h : ∀ r ∈ data, sortVal r = JSNum.val 0) : draftSortedRows data = data := by
  induction data with
  | nil => rfl
  | cons r rest ih =>
      unfold draftSortedRows at ih ⊢
      rw [List.foldr_cons]
      have hrest : ∀ x ∈ rest, sortVal x = JSNum.val 0 :=
        fun x hx => h x (List.mem_cons_of_mem _ hx)
      rw [ih hrest]
      cases rest with
      | nil => rfl
      | cons y ys =>
          have h0 : sortVal r = JSNum.val 0 := h r (List.mem_cons_self _ _)
          have h1 : sortVal y = JSNum.val 0 := hrest y (List.mem_cons_self _ _)
          unfold insertDesc
          rw [h0, h1, if_neg (by simp [jsNumLt])]

/-- C6: a code bug.  `generateEmailDraft` sorts a copy of the rows, stably
and descending by the literal key "days from last hit" (missing or `NaN`
values count as 0), without mutating the stored rows — but the header
normalizer collapses whitespace to hyphens, so no normalized row has a key
containing a space: the real column is `days-from-last-hit`, every sort key
is 0, and the sort is the identity on every row the pipeline can produce.
The concrete conjunct evaluates the failing input: two normalized rows
carrying `days-from-last-hit` values "3" and "9" are left in input order
instead of being reordered descending. -/
theorem claim_C6 :
    (∀ data : List ReportRow, (draftSortedRows data).Perm data) ∧
    (∀ data : List ReportRow, (draftSortedRows data).Pairwise
        fun a b => jsNumLt (sortVal a) (sortVal b) = false) ∧
    (∀ data : List ReportRow, rowsAfterDraftCall data = data) ∧
    (∀ data : List ReportRow, promptTableOf data = dataToHtmlTable (draftSortedRows data)) ∧
    (∀ rec : RawRecord,
        lookupKey (cleanRow (normalizeRecord rec)) "days from last hit" = none ∧
        sortVal (cleanRow (normalizeRecord rec)) = JSNum.val 0) ∧
    (∀ data : List ReportRow, (∀ r ∈ data, sortVal r = JSNum.val 0) →
        draftSortedRows data = data) ∧
    (processRows
        [[("Bottler", Scalar.str "ACME"), ("Sub Bottler", Scalar.str "East"),
            ("Days From Last Hit", Scalar.num 3)],
          [("Bottler", Scalar.str "ACME"), ("Sub Bottler", Scalar.str "West"),
            ("Days From Last Hit", Scalar.num 9)]] =
        .ok [[("bottler", "ACME"), ("sub-bottler", "East"), ("days-from-last-hit", "3"),
            ("subbottler", "East")],
          [("bottler", "ACME"), ("sub-bottler", "West"), ("days-from-last-hit", "9"),
            ("subbottler", "West")]] ∧
      draftSortedRows
          [[("bottler", "ACME"), ("sub-bottler", "East"), ("days-from-last-hit", "3"),
            ("subbottler", "East")],
          [("bottler", "ACME"), ("sub-bottler", "West"), ("days-from-last-hit", "9"),
            ("subbottler", "West")]] =
        [[("bottler", "ACME"), ("sub-bottler", "East"), ("days-from-last-hit", "3"),
            ("subbottler", "East")],
          [("bottler", "ACME"), ("sub-bottler", "West"), ("days-from-last-hit", "9"),
            ("subbottler", "West")]] ∧
      lookupKey [("bottler", "ACME"), ("sub-bottler", "East"), ("days-from-last-hit", "3"),
          ("subbottler", "East")] "days-from-last-hit" = some "3" ∧
      lookupKey [("bottler", "ACME"), ("sub-bottler", "West"), ("days-from-last-hit", "9"),
          ("subbottler", "West")] "days-from-last-hit" = some "9") := by
  refine ⟨?_, ?_, fun data => rfl, fun data => rfl,
    fun rec => ⟨daysKey_not_in_cleanRow rec, sortVal_cleanRow rec⟩,
    fun data h => draftSortedRows_allZero h, rfl, ?_, rfl, rfl⟩
  · intro data
    induction data with
    | nil => exact List.Perm.refl _
    | cons r rs ih =>
        unfold draftSortedRows at ih ⊢
        rw [List.foldr_cons]
        exact (insertDesc_perm r _).trans (ih.cons r)
  · intro data
    induction data with
    | nil => exact List.Pairwise.nil
    | cons r rs ih =>
        unfold draftSortedRows at ih ⊢
        rw [List.foldr_cons]
        exact pairwise_insertDesc r _ ih
  · refine draftSortedRows_allZero ?_
    intro r hr
    rcases List.mem_cons.mp hr with rfl | hr
    · rfl
    · rcases List.mem_cons.mp hr with rfl | hr
      · rfl
      · cases hr

/-- Witness for C6: a reachable-shape row without the spaced key sorts as
0, so a singleton list is returned unchanged. -/
theorem claim_C6_witness :
    draftSortedRows [[("subbottler", "A"), ("days-from-last-hit", "7")]] =
      [[("subbottler", "A"), ("days-from-last-hit", "7")]] :=
  claim_C6.2.2.2.2.2.1 _ (by
    intro r hr
    rcases List.mem_cons.mp hr with rfl | hr
    · rfl
    · cases hr)

/-- C7: the validator returns exactly the in-order sublist of trimmed,
non-empty comma-separated entries matching the email pattern — so
"a@b.com, not-an-email, c@d.com" validates to ["a@b.com", "c@d.com"] —
while the save path rejects the entire edit when any non-empty entry fails
the pattern and otherwise persists the string with whitespace normalized
around commas. -/
theorem claim_C7 :
    getValidEmails (some "a@b.com, not-an-email, c@d.com") = ["a@b.com", "c@d.com"] ∧
    (∀ s : String, (getValidEmails (some s)).Sublist ((splitChar ',' s).map jsTrim)) ∧
    (∀ (s e : String), e ∈ getValidEmails (some s) ↔
        e ∈ (splitChar ',' s).map jsTrim ∧ e ≠ "" ∧ emailRegexTest e = true) ∧
    handleSave "a@b.com, not-an-email, c@d.com" = none ∧
    handleSave "a@b.com ,   c@d.com" = some "a@b.com, c@d.com" ∧
    (∀ s : String, validateEmails (normalizeRecipientString s) = true →
        handleSave s = some (normalizeRecipientString s)) ∧
    (∀ s : String, validateEmails (normalizeRecipientString s) = false →
        handleSave s = none) := by
  refine ⟨by decide, ?_, ?_, by decide, by decide, ?_, ?_⟩
  · intro s
    simp only [getValidEmails]
    by_cases h : s == ""
    · rw [if_pos h]
      exact List.nil_sublist _
    · rw [if_neg h]
      exact List.filter_sublist _
  · intro s e
    simp only [getValidEmails]
    by_cases h : s == ""
    · rw [if_pos h]
      have hs : s = "" := by simpa using h
      subst hs
      constructor
      · intro hmem
        cases hmem
      · rintro ⟨hmem, hne, _⟩
        have : e = "" := by
          simpa [splitChar, splitCharAux, jsTrim, trimChars] using hmem
        exact absurd this hne
    · rw [if_neg h]
      rw [List.mem_filter]
      constructor
      · rintro ⟨hmem, hp⟩
        simp only [Bool.and_eq_true, bne_iff_ne, ne_eq] at hp
        exact ⟨hmem, hp.1, hp.2⟩
      · rintro ⟨hmem, hne, hre⟩
        refine ⟨hmem, ?_⟩
        simp only [Bool.and_eq_true, bne_iff_ne, ne_eq]
        exact ⟨hne, hre⟩
  · intro s hv
    unfold handleSave
    rw [if_pos hv]
  · intro s hv
    unfold handleSave
    rw [if_neg (by simp [hv])]

/-- Witness for C7: a valid single-address string is persisted in
normalized form. -/
theorem claim_C7_witness :
    handleSave "x@y.co" = some (normalizeRecipientString "x@y.co") :=
  claim_C7.2.2.2.2.2.1 "x@y.co" (by decide)

theorem doubleQuotes_cons (c : Char) (cs : List Char) :
    doubleQuotes (c :: cs) =
      if c == '"' then '"' :: '"' :: doubleQuotes cs else c :: doubleQuotes cs := rfl

theorem undoubleQuotes_cons_cons (c1 c2 : Char) (cs : List Char) :
    undoubleQuotes (c1 :: c2 :: cs) =
      if c1 = '"' ∧ c2 = '"' then '"' :: undoubleQuotes cs
      else c1 :: undoubleQuotes (c2 :: cs) := rfl

theorem doubleQuotes_eq_self {cs : List Char} (h : cs.contains '"' = false) :
    doubleQuotes cs = cs := by
  induction cs with
  | nil => rfl
  | cons c cs ih =>
      simp only [List.contains_cons, Bool.or_eq_false_iff, beq_eq_false_iff_ne, ne_eq] at h
      rw [doubleQuotes_cons, if_neg (by simpa using fun hc => h.1 hc.symm), ih h.2]

theorem undoubleQuotes_doubleQuotes (cs : List Char) :
    undoubleQuotes (doubleQuotes cs) = cs := by
  induction cs with
  | nil => rfl
  | cons c cs ih =>
      rw [doubleQuotes_cons]
      by_cases h : c = '"'
      · subst h
        rw [if_pos (show ('\"' == '\"') = true from rfl), undoubleQuotes_cons_cons,
          if_pos ⟨rfl, rfl⟩, ih]
      · rw [if_neg (by simpa using h)]
        cases cs with
        | nil => rfl
        | cons c2 cs2 =>
            obtain ⟨d, ds, hDeq⟩ : ∃ d ds, doubleQuotes (c2 :: cs2) = d :: ds := by
              rw [doubleQuotes_cons]
              by_cases h2 : (c2 == '"') = true
              · rw [if_pos h2]
                exact ⟨_, _, rfl⟩
              · rw [if_neg h2]
                exact ⟨_, _, rfl⟩
            rw [hDeq, undoubleQuotes_cons_cons, if_neg (by simp [h]), ← hDeq, ih]

theorem csvFieldRead_wrap (cs : List Char) :
    csvFieldRead (String.mk ('"' :: cs ++ ['"'])) = String.mk (undoubleQuotes cs) := by
  unfold csvFieldRead
  simp [List.getLast?_concat, List.dropLast_concat]

theorem csvFieldRead_of_head_ne (s : String) (h : s.toList.head? ≠ some '"') :
    csvFieldRead s = s := by
  unfold csvFieldRead
  split
  · rename_i rest heq
    exact absurd (by rw [heq]; rfl) h
  · rfl

/-- C8: the CSV serializer emits the header line from the first row's keys,
doubles every embedded quote, and wraps a field in quotes exactly when it
contains a comma, quote or newline; re-splitting a serialized field
recovers the original value (round-trip), e.g. for "Acme, Inc.". -/
theorem claim_C8 :
    (∀ s : String, csvFieldRead (escapeCell s) = s) ∧
    (∀ s : String,
        (s.toList.contains ',' || s.toList.contains '\n' || s.toList.contains '"') = true →
        escapeCell s = "\"" ++ String.mk (doubleQuotes s.toList) ++ "\"") ∧
    (∀ s : String,
        (s.toList.contains ',' || s.toList.contains '\n' || s.toList.contains '"') = false →
        escapeCell s = s) ∧
    escapeCell "Acme, Inc." = "\"Acme, Inc.\"" ∧
    csvFieldRead "\"Acme, Inc.\"" = "Acme, Inc." ∧
    reportRowsToCSV [[("bottler", "Acme, Inc."), ("subbottler", "A")]] =
      "bottler,subbottler\n\"Acme, Inc.\",A" ∧
    (∀ (first : ReportRow) (rest : List ReportRow), ∃ bodyLines : List String,
        reportRowsToCSV (first :: rest) =
          String.intercalate "\n" (String.intercalate "," (first.map Prod.fst) :: bodyLines)) := by
  have hwrap : ∀ s : String,
      (s.toList.contains ',' || s.toList.contains '\n' || s.toList.contains '"') = true →
      escapeCell s = "\"" ++ String.mk (doubleQuotes s.toList) ++ "\"" := by
    intro s h
    unfold escapeCell
    rw [if_pos h]
  have hplain : ∀ s : String,
      (s.toList.contains ',' || s.toList.contains '\n' || s.toList.contains '"') = false →
      escapeCell s = s := by
    intro s h
    simp only [Bool.or_eq_false_iff] at h
    unfold escapeCell
    rw [if_neg (by rw [h.1.1, h.1.2, h.2]; decide), doubleQuotes_eq_self h.2]
    cases s
    rfl
  refine ⟨?_, hwrap, hplain, by decide, by decide, by decide, ?_⟩
  · intro s
    by_cases h : (s.toList.contains ',' || s.toList.contains '\n' || s.toList.contains '"') = true
    · rw [hwrap s h]
      have hmk : ("\"" ++ String.mk (doubleQuotes s.toList) ++ "\"" : String) =
          String.mk ('"' :: doubleQuotes s.toList ++ ['"']) := rfl
      rw [hmk, csvFieldRead_wrap, undoubleQuotes_doubleQuotes]
      cases s
      rfl
    · have hf := Bool.eq_false_iff.mpr h
      rw [hplain s hf]
      simp only [Bool.or_eq_false_iff] at hf
      apply csvFieldRead_of_head_ne
      intro hh
      have : '"' ∈ s.toList := by
        cases hl : s.toList with
        | nil => rw [hl] at hh; cases hh
        | cons a t =>
            rw [hl] at hh
            simp only [List.head?_cons, Option.some.injEq] at hh
            rw [hh]
            exact List.mem_cons_self _ _
      have : s.toList.contains '"' = true := List.elem_eq_true_of_mem this
      rw [this] at hf
      exact Bool.noConfusion hf.2
  · intro first rest
    exact ⟨_, rfl⟩

/-- Witness for C8: a field without special characters is emitted
unquoted and unchanged. -/
theorem claim_C8_witness : escapeCell "plain" = "plain" :=
  claim_C8.2.2.1 "plain" (by decide)

theorem statesFrom_headq (s : DraftState) (es : List GenEvent) :
    (statesFrom s es).head? = some s := by
  cases es <;> rfl

theorem safeStep_to_pending (s : DraftState) : SafeStep s DraftState.pending := by
  cases s with
  | pending => exact Or.inl rfl
  | ready s b => exact Or.inr rfl
  | failed => exact Or.inr rfl

theorem chain_statesFrom (es : List GenEvent) :
    ∀ (b : Bool) (s : DraftState), alternates b es = true →
      (b = false → s = DraftState.pending) →
      List.Chain' SafeStep (statesFrom s es) := by
  induction es with
  | nil =>
      intro b s _ _
      exact List.chain'_singleton s
  | cons e es ih =>
      intro b s halt hb
      cases e with
      | start =>
          cases b with
          | false => exact absurd halt (by simp [alternates])
          | true =>
              show List.Chain' SafeStep (s :: statesFrom DraftState.pending es)
              refine List.chain'_cons'.mpr ⟨?_, ih false DraftState.pending halt (fun _ => rfl)⟩
              intro y hy
              rw [statesFrom_headq] at hy
              cases hy
              exact safeStep_to_pending s
      | complete o =>
          cases b with
          | true => exact absurd halt (by simp [alternates])
          | false =>
              have hs := hb rfl
              subst hs
              show List.Chain' SafeStep
                (DraftState.pending :: statesFrom (applyOutcome o) es)
              refine List.chain'_cons'.mpr
                ⟨?_, ih true (applyOutcome o) halt (fun hf => Bool.noConfusion hf)⟩
              intro y hy
              rw [statesFrom_headq] at hy
              cases hy
              cases o with
              | success s b => exact Or.inr rfl
              | failure m => exact Or.inr rfl

/-- C9 fails as stated: two overlapping generation calls for the same group
(the source lets a single-group regeneration overlap an in-flight batch
run) give the event interleaving `start, start, complete(success),
complete(failure)`, whose state history performs a direct `ready → failed`
step without re-entering `pending`. -/
theorem claim_C9_counterexample :
    alternates true [GenEvent.start, GenEvent.start,
        GenEvent.complete (Outcome.success "Subject" "Body"),
        GenEvent.complete (Outcome.failure "quota")] = false ∧
    statesFrom DraftState.pending [GenEvent.start, GenEvent.start,
        GenEvent.complete (Outcome.success "Subject" "Body"),
        GenEvent.complete (Outcome.failure "quota")] =
      [DraftState.pending, DraftState.pending, DraftState.pending,
        DraftState.ready "Subject" "Body", DraftState.failed] ∧
    ¬ List.Chain' SafeStep
        (statesFrom DraftState.pending [GenEvent.start, GenEvent.start,
          GenEvent.complete (Outcome.success "Subject" "Body"),
          GenEvent.complete (Outcome.failure "quota")]) :=
  ⟨rfl, rfl, by
    intro h
    have hs : statesFrom DraftState.pending [GenEvent.start, GenEvent.start,
        GenEvent.complete (Outcome.success "Subject" "Body"),
        GenEvent.complete (Outcome.failure "quota")] =
        [DraftState.pending, DraftState.pending, DraftState.pending,
          DraftState.ready "Subject" "Body", DraftState.failed] := rfl
    rw [hs, List.chain'_cons, List.chain'_cons, List.chain'_cons, List.chain'_cons] at h
    exact absurd h.2.2.2.1 (by decide)⟩

/-- C9 (amended): immediately after partitioning every group's state is
pending, and in any execution whose generation calls for the group do not
overlap (each settlement lands before the next call starts — the event list
alternates `start, complete, …`), every state change is one of
`pending → ready`, `pending → failed`, `ready → pending`,
`failed → pending`; overlapping calls for one group can instead produce
direct `ready → failed` or `failed → ready` steps. -/
theorem claim_C9_amended :
    (∀ (gs : List SubBottlerGroup) (g : SubBottlerGroup), g ∈ gs →
        lookupKey (initialDrafts gs) g.name = some DraftState.pending) ∧
    (∀ es : List GenEvent, alternates true es = true →
        List.Chain' SafeStep (statesFrom DraftState.pending es)) := by
  constructor
  · have aux : ∀ (gs : List SubBottlerGroup) (st : List (String × DraftState)) (n : String),
        (lookupKey st n = some DraftState.pending ∨ n ∈ gs.map SubBottlerGroup.name) →
        lookupKey (gs.foldl (fun st g => assocSet st g.name DraftState.pending) st) n =
          some DraftState.pending := by
      intro gs
      induction gs with
      | nil =>
          intro st n h
          rcases h with h | h
          · exact h
          · cases h
      | cons g gs ih =>
          intro st n h
          rw [List.foldl_cons]
          refine ih _ n ?_
          by_cases hn : n = g.name
          · subst hn
            exact Or.inl (lookupKey_assocSet_self _ _ _)
          · rcases h with h | h
            · exact Or.inl (by rw [lookupKey_assocSet_ne _ _ _ _ hn]; exact h)
            · rcases List.mem_cons.mp h with h | h
              · exact absurd h hn
              · exact Or.inr h
    intro gs g hg
    exact aux gs [] g.name (Or.inr (List.mem_map_of_mem SubBottlerGroup.name hg))
  · intro es halt
    exact chain_statesFrom es true DraftState.pending halt (fun hf => Bool.noConfusion hf)

/-- Witness for the amended C9: a group of the partition starts pending,
and a serialized regeneration history (generate, fail, regenerate,
succeed) only takes allowed transitions. -/
theorem claim_C9_witness :
    lookupKey (initialDrafts [⟨"ACME", []⟩, ⟨"East", []⟩]) "East" =
      some DraftState.pending ∧
    List.Chain' SafeStep (statesFrom DraftState.pending
      [GenEvent.start, GenEvent.complete (Outcome.failure "net"),
        GenEvent.start, GenEvent.complete (Outcome.success "S" "B")]) :=
  ⟨claim_C9_amended.1 [⟨"ACME", []⟩, ⟨"East", []⟩] ⟨"East", []⟩ (by decide),
   claim_C9_amended.2 _ (by decide)⟩

theorem chunksOf_nil {α : Type} (k : Nat) : chunksOf k ([] : List α) = [] := by
  unfold chunksOf
  split <;> rfl

theorem chunksOf_cons {α : Type} (k : Nat) (hk : k ≠ 0) (a : α) (l : List α) :
    chunksOf k (a :: l) = (a :: l).take k :: chunksOf k ((a :: l).drop k) := by
  conv_lhs => rw [chunksOf]
  simp [hk]

theorem chunksOf_join_aux {α : Type} (k : Nat) (hk : k ≠ 0) :
    ∀ (n : Nat) (l : List α), l.length ≤ n → (chunksOf k l).flatten = l := by
  intro n
  induction n with
  | zero =>
      intro l hl
      have h0 : l = [] := List.eq_nil_of_length_eq_zero (Nat.le_zero.mp hl)
      subst h0
      simp [chunksOf_nil]
  | succ n ih =>
      intro l hl
      cases l with
      | nil => simp [chunksOf_nil]
      | cons a t =>
          rw [chunksOf_cons k hk a t, List.flatten_cons, ih _ ?_, List.take_append_drop]
          simp only [List.length_drop, List.length_cons]
          simp only [List.length_cons] at hl
          omega

theorem chunksOf_mem_aux {α : Type} (k : Nat) (hk : k ≠ 0) :
    ∀ (n : Nat) (l : List α) (c : List α), l.length ≤ n → c ∈ chunksOf k l →
      c ≠ [] ∧ c.length ≤ k := by
  intro n
  induction n with
  | zero =>
      intro l c hl hc
      have h0 : l = [] := List.eq_nil_of_length_eq_zero (Nat.le_zero.mp hl)
      subst h0
      rw [chunksOf_nil] at hc
      cases hc
  | succ n ih =>
      intro l c hl hc
      cases l with
      | nil =>
          rw [chunksOf_nil] at hc
          cases hc
      | cons a t =>
          rw [chunksOf_cons k hk a t] at hc
          rcases List.mem_cons.mp hc with rfl | hmem
          · constructor
            · cases k with
              | zero => exact absurd rfl hk
              | succ k2 => simp [List.take_succ_cons]
            · rw [List.length_take]
              exact min_le_left _ _
          · refine ih _ c ?_ hmem
            simp only [List.length_drop, List.length_cons]
            simp only [List.length_cons] at hl
            omega

theorem chunksOf_eq_nil_iff {α : Type} (k : Nat) (hk : k ≠ 0) (l : List α) :
    chunksOf k l = [] ↔ l = [] := by
  cases l with
  | nil => simp [chunksOf_nil]
  | cons a t => simp [chunksOf_cons k hk]

theorem chunksOf_full_aux {α : Type} (k : Nat) (hk : k ≠ 0) :
    ∀ (n : Nat) (l : List α) (i : Nat), l.length ≤ n →
      i + 1 < (chunksOf k l).length → ((chunksOf k l).getD i []).length = k := by
  intro n
  induction n with
  | zero =>
      intro l i hl hi
      have h0 : l = [] := List.eq_nil_of_length_eq_zero (Nat.le_zero.mp hl)
      subst h0
      rw [chunksOf_nil] at hi
      cases hi
  | succ n ih =>
      intro l i hl hi
      cases l with
      | nil =>
          rw [chunksOf_nil] at hi
          cases hi
      | cons a t =>
          rw [chunksOf_cons k hk a t] at hi ⊢
          cases i with
          | zero =>
              simp only [List.getD_cons_zero]
              simp only [List.length_cons] at hi
              have hrest : chunksOf k ((a :: t).drop k) ≠ [] := by
                intro hnil
                rw [hnil] at hi
                exact absurd hi (by simp)
              have hdrop : (a :: t).drop k ≠ [] := by
                intro hnil
                rw [hnil, chunksOf_nil] at hrest
                exact hrest rfl
              have hlen : k < (a :: t).length := by
                by_contra hle
                exact hdrop (List.drop_eq_nil_of_le (Nat.le_of_not_lt hle))
              rw [List.length_take]
              exact Nat.min_eq_left (Nat.le_of_lt hlen)
          | succ j =>
              simp only [List.getD_cons_succ]
              refine ih _ j ?_ ?_
              · simp only [List.length_drop, List.length_cons]
                simp only [List.length_cons] at hl
                omega
              · simp only [List.length_cons] at hi
                omega

theorem chunksOf_map_length_aux {α : Type} (k : Nat) (hk : k ≠ 0) :
    ∀ (n : Nat) (l : List α), l.length ≤ n →
      (chunksOf k l).map List.length = chunkLens k l.length := by
  intro n
  induction n with
  | zero =>
      intro l hl
      have h0 : l = [] := List.eq_nil_of_length_eq_zero (Nat.le_zero.mp hl)
      subst h0
      rw [chunksOf_nil]
      rw [chunkLens]
      simp [hk]
  | succ n ih =>
      intro l hl
      cases l with
      | nil =>
          rw [chunksOf_nil]
          rw [chunkLens]
          simp [hk]
      | cons a t =>
          rw [chunksOf_cons k hk a t, List.map_cons, List.length_take,
            ih _ (by simp only [List.length_drop, List.length_cons] at hl ⊢; omega)]
          conv_rhs => rw [chunkLens]
          simp [hk, List.length_drop]

theorem countPauses_scheduleOf (bs : List (List SubBottlerGroup)) (hbs : bs ≠ []) :
    countPauses (scheduleOf bs) = bs.length - 1 := by
  induction bs with
  | nil => exact absurd rfl hbs
  | cons b rest ih =>
      cases rest with
      | nil => rfl
      | cons b2 rest2 =>
          have h2 := ih (by simp)
          show countPauses (OrchEvent.genBatch (b.map SubBottlerGroup.name) ::
            OrchEvent.pause DELAY_BETWEEN_BATCHES_MS :: scheduleOf (b2 :: rest2)) = _
          simp only [countPauses] at h2 ⊢
          simp only [List.length_cons] at h2 ⊢
          omega

theorem scheduleOf_ne_nil (b : List SubBottlerGroup) (rest : List (List SubBottlerGroup)) :
    scheduleOf (b :: rest) ≠ [] := by
  cases rest <;> simp [scheduleOf]

theorem scheduleOf_getLast_not_pause (bs : List (List SubBottlerGroup)) (ms : Nat) :
    (scheduleOf bs).getLast? ≠ some (OrchEvent.pause ms) := by
  induction bs with
  | nil => simp [scheduleOf]
  | cons b rest ih =>
      cases rest with
      | nil => simp [scheduleOf]
      | cons b2 rest2 =>
          show (OrchEvent.genBatch (b.map SubBottlerGroup.name) ::
            OrchEvent.pause DELAY_BETWEEN_BATCHES_MS :: scheduleOf (b2 :: rest2)).getLast? ≠ _
          rw [List.getLast?_cons_cons]
          cases hS : scheduleOf (b2 :: rest2) with
          | nil => exact absurd hS (scheduleOf_ne_nil b2 rest2)
          | cons x xs =>
              rw [List.getLast?_cons_cons]
              rw [hS] at ih
              exact ih

theorem filterMap_scheduleOf (bs : List (List SubBottlerGroup)) :
    (scheduleOf bs).filterMap eventBatchNames =
      bs.map fun b => b.map SubBottlerGroup.name := by
  induction bs with
  | nil => rfl
  | cons b rest ih =>
      cases rest with
      | nil => rfl
      | cons b2 rest2 =>
          show (OrchEvent.genBatch (b.map SubBottlerGroup.name) ::
            OrchEvent.pause DELAY_BETWEEN_BATCHES_MS :: scheduleOf (b2 :: rest2)).filterMap
              eventBatchNames = _
          rw [List.filterMap_cons, List.filterMap_cons]
          simpa [eventBatchNames] using ih

/-- C4: `generateAllDrafts` splits the group list into consecutive chunks
of `BATCH_SIZE = 5` (their concatenation is the input; every chunk is
non-empty and at most 5 long; every chunk but the last is exactly 5 long),
issues each chunk as one concurrent batch in order, pauses
`DELAY_BETWEEN_BATCHES_MS` between consecutive chunks but never after the
last, and 12 groups give exactly 3 chunks of sizes 5, 5, 2 with exactly 2
pauses.  Within a chunk all calls are issued jointly and every promise
fulfills (`generateSingleDraft` catches internally), so `Promise.all`
settles only after the whole chunk settles. -/
theorem claim_C4 :
    (∀ groups : List SubBottlerGroup, (chunksOf BATCH_SIZE groups).flatten = groups) ∧
    (∀ (groups c : List SubBottlerGroup),
        c ∈ chunksOf BATCH_SIZE groups → c ≠ [] ∧ c.length ≤ BATCH_SIZE) ∧
    (∀ (groups : List SubBottlerGroup) (i : Nat),
        i + 1 < (chunksOf BATCH_SIZE groups).length →
        ((chunksOf BATCH_SIZE groups).getD i []).length = BATCH_SIZE) ∧
    (∀ groups : List SubBottlerGroup,
        (generateAllTrace groups).filterMap eventBatchNames =
          (chunksOf BATCH_SIZE groups).map fun b => b.map SubBottlerGroup.name) ∧
    (∀ groups : List SubBottlerGroup, groups ≠ [] →
        countPauses (generateAllTrace groups) = (chunksOf BATCH_SIZE groups).length - 1) ∧
    (∀ (groups : List SubBottlerGroup) (ms : Nat),
        (generateAllTrace groups).getLast? ≠ some (OrchEvent.pause ms)) ∧
    (∀ groups : List SubBottlerGroup, groups.length = 12 →
        (chunksOf BATCH_SIZE groups).map List.length = [5, 5, 2] ∧
        countPauses (generateAllTrace groups) = 2) := by
  have hk : BATCH_SIZE ≠ 0 := by decide
  refine ⟨fun groups => chunksOf_join_aux BATCH_SIZE hk groups.length groups le_rfl,
    fun groups c hc => chunksOf_mem_aux BATCH_SIZE hk groups.length groups c le_rfl hc,
    fun groups i hi => chunksOf_full_aux BATCH_SIZE hk groups.length groups i le_rfl hi,
    fun groups => filterMap_scheduleOf _,
    ?_, fun groups ms => scheduleOf_getLast_not_pause _ ms, ?_⟩
  · intro groups hne
    exact countPauses_scheduleOf _ ((not_iff_not.mpr (chunksOf_eq_nil_iff _ hk _)).mpr hne)
  · intro groups h12
    have hmap := chunksOf_map_length_aux BATCH_SIZE hk groups.length groups le_rfl
    rw [h12] at hmap
    have hlens : chunkLens BATCH_SIZE 12 = [5, 5, 2] := by
      show chunkLens 5 12 = [5, 5, 2]
      rw [chunkLens]
      norm_num
      rw [chunkLens]
      norm_num
      rw [chunkLens]
      norm_num
      rw [chunkLens]
      norm_num
    rw [hlens] at hmap
    refine ⟨hmap, ?_⟩
    have hne : groups ≠ [] := by
      intro h0
      rw [h0] at h12
      cases h12
    have hcount := countPauses_scheduleOf (chunksOf BATCH_SIZE groups)
      ((not_iff_not.mpr (chunksOf_eq_nil_iff _ hk _)).mpr hne)
    have hlen3 : (chunksOf BATCH_SIZE groups).length = 3 := by
      have := congrArg List.length hmap
      simpa using this
    rw [hlen3] at hcount
    exact hcount

/-- Witness for C4 at a concrete 12-group list. -/
theorem claim_C4_witness :
    (chunksOf BATCH_SIZE ((List.range 12).map fun i =>
        ({ name := Nat.repr i, rows := [] } : SubBottlerGroup))).map List.length = [5, 5, 2] ∧
    countPauses (generateAllTrace ((List.range 12).map fun i =>
        ({ name := Nat.repr i, rows := [] } : SubBottlerGroup))) = 2 :=
  claim_C4.2.2.2.2.2.2 _ (by simp)

theorem lookupKey_of_mem {α : Type} {l : List (String × α)} {k : String} {v : α}
    (hnd : (l.map Prod.fst).Nodup) (hmem : (k, v) ∈ l) : lookupKey l k = some v := by
  induction l with
  | nil => cases hmem
  | cons hd tl ih =>
      obtain ⟨k0, v0⟩ := hd
      simp only [List.map_cons, List.nodup_cons] at hnd
      rcases List.mem_cons.mp hmem with heq | htl
      · cases heq
        simp [lookupKey]
      · have hk : k0 ≠ k := by
          intro h
          subst h
          exact hnd.1 (List.mem_map_of_mem Prod.fst htl)
        simp only [lookupKey, beq_iff_eq, hk, if_false]
        exact ih hnd.2 htl

theorem map_fst_assocSet_mem {α : Type} (l : List (String × α)) (k : String) (v : α)
    (h : k ∈ l.map Prod.fst) : (assocSet l k v).map Prod.fst = l.map Prod.fst := by
  induction l with
  | nil => cases h
  | cons hd tl ih =>
      obtain ⟨k0, v0⟩ := hd
      by_cases hk : k0 = k
      · simp [assocSet, hk]
      · simp only [List.map_cons, List.mem_cons] at h
        rcases h with h | h
        · exact absurd h.symm hk
        · simp only [assocSet, beq_iff_eq, hk, if_false, List.map_cons, ih h]

theorem groupStep_getD (acc : List (String × List ReportRow)) (row : ReportRow)
    (k : String) :
    (lookupKey (groupStep acc row) k).getD [] =
      (lookupKey acc k).getD [] ++ (if subbottlerOf row = k then [row] else []) := by
  unfold groupStep
  by_cases hk : subbottlerOf row = k
  · rw [if_pos hk]
    cases hacc : lookupKey acc (subbottlerOf row) with
    | none =>
        rw [lookupKey_append]
        rw [hk] at hacc
        rw [hacc]
        simp [lookupKey, hk]
    | some rs =>
        rw [hk] at hacc
        rw [hk, lookupKey_assocSet_self, hacc]
        rfl
  · rw [if_neg hk]
    cases hacc : lookupKey acc (subbottlerOf row) with
    | none =>
        rw [lookupKey_append]
        cases hacck : lookupKey acc k with
        | none => simp [lookupKey, hk]
        | some rs => simp
    | some rs =>
        rw [lookupKey_assocSet_ne _ _ _ _ (fun h => hk h.symm), List.append_nil]

theorem foldl_groupStep_getD (rows : List ReportRow)
    (acc : List (String × List ReportRow)) (k : String) :
    (lookupKey (rows.foldl groupStep acc) k).getD [] =
      (lookupKey acc k).getD [] ++ rows.filter (fun r => subbottlerOf r == k) := by
  induction rows generalizing acc with
  | nil => simp
  | cons r rest ih =>
      rw [List.foldl_cons, ih, groupStep_getD]
      by_cases hk : subbottlerOf r = k
      · rw [List.filter_cons_of_pos (by simpa using hk), if_pos hk, List.append_assoc]
        rfl
      · rw [List.filter_cons_of_neg (by simpa using hk), if_neg hk, List.append_nil]

theorem lookupKey_groupPairs_getD (rows : List ReportRow) (k : String) :
    (lookupKey (groupPairs rows) k).getD [] = rows.filter (fun r => subbottlerOf r == k) := by
  unfold groupPairs
  rw [foldl_groupStep_getD]
  rfl

theorem map_fst_groupStep (acc : List (String × List ReportRow)) (row : ReportRow) :
    (groupStep acc row).map Prod.fst = seenStep (acc.map Prod.fst) row := by
  unfold groupStep seenStep
  cases hacc : lookupKey acc (subbottlerOf row) with
  | none =>
      have hnm : subbottlerOf row ∉ acc.map Prod.fst :=
        (lookupKey_eq_none_iff acc (subbottlerOf row)).mp hacc
      rw [if_neg hnm, List.map_append]
      rfl
  | some rs =>
      have hm : subbottlerOf row ∈ acc.map Prod.fst := by
        by_contra hnm
        rw [(lookupKey_eq_none_iff acc (subbottlerOf row)).mpr hnm] at hacc
        cases hacc
      rw [if_pos hm, map_fst_assocSet_mem _ _ _ hm]

theorem map_fst_foldl_groupStep (rows : List ReportRow)
    (acc : List (String × List ReportRow)) :
    (rows.foldl groupStep acc).map Prod.fst = rows.foldl seenStep (acc.map Prod.fst) := by
  induction rows generalizing acc with
  | nil => rfl
  | cons r rest ih =>
      rw [List.foldl_cons, List.foldl_cons, ih, map_fst_groupStep]

theorem map_fst_groupPairs (rows : List ReportRow) :
    (groupPairs rows).map Prod.fst = firstSeenKeys rows := by
  unfold groupPairs firstSeenKeys
  rw [map_fst_foldl_groupStep]
  rfl

theorem foldl_seenStep_nodup (rows : List ReportRow) (ks : List String)
    (hks : ks.Nodup) : (rows.foldl seenStep ks).Nodup := by
  induction rows generalizing ks with
  | nil => exact hks
  | cons r rest ih =>
      rw [List.foldl_cons]
      refine ih _ ?_
      unfold seenStep
      by_cases hm : subbottlerOf r ∈ ks
      · rw [if_pos hm]
        exact hks
      · rw [if_neg hm]
        simp [List.nodup_append, hks, hm]

theorem firstSeenKeys_nodup (rows : List ReportRow) : (firstSeenKeys rows).Nodup :=
  foldl_seenStep_nodup rows [] List.nodup_nil

theorem sum_assocSet (l : List (String × List ReportRow)) (k : String)
    (rs v : List ReportRow) (h : lookupKey l k = some rs) :
    ((assocSet l k v).map fun p => p.2.length).sum + rs.length =
      (l.map fun p => p.2.length).sum + v.length := by
  induction l with
  | nil => cases h
  | cons hd tl ih =>
      obtain ⟨k0, v0⟩ := hd
      by_cases hk : k0 = k
      · subst hk
        simp only [lookupKey, beq_self_eq_true, if_true, Option.some.injEq] at h
        subst h
        simp only [assocSet, beq_self_eq_true, if_true, List.map_cons, List.sum_cons]
        omega
      · simp only [lookupKey, beq_iff_eq, hk, if_false] at h
        simp only [assocSet, beq_iff_eq, hk, if_false, List.map_cons, List.sum_cons]
        have := ih h
        omega

theorem sum_groupStep (acc : List (String × List ReportRow)) (row : ReportRow) :
    ((groupStep acc row).map fun p => p.2.length).sum =
      (acc.map fun p => p.2.length).sum + 1 := by
  cases hacc : lookupKey acc (subbottlerOf row) with
  | none => simp [groupStep, hacc]
  | some rs =>
      have h2 := sum_assocSet acc (subbottlerOf row) rs (rs ++ [row]) hacc
      simp only [groupStep, hacc, List.length_append, List.length_cons,
        List.length_nil] at h2 ⊢
      omega

theorem sum_groupPairs (rows : List ReportRow) :
    ((groupPairs rows).map fun p => p.2.length).sum = rows.length := by
  unfold groupPairs
  suffices h : ∀ (rs : List ReportRow) (acc : List (String × List ReportRow)),
      ((rs.foldl groupStep acc).map fun p => p.2.length).sum =
        (acc.map fun p => p.2.length).sum + rs.length by
    simpa using h rows []
  intro rs
  induction rs with
  | nil => intro acc; simp
  | cons r rest ih =>
      intro acc
      rw [List.foldl_cons, ih, sum_groupStep]
      simp only [List.length_cons]
      omega

theorem insertIndexSorted_perm (p : String × List ReportRow)
    (l : List (String × List ReportRow)) : (insertIndexSorted p l).Perm (p :: l) := by
  induction l with
  | nil => exact List.Perm.refl _
  | cons q qs ih =>
      unfold insertIndexSorted
      by_cases h : arrayIndexVal q.1 ≤ arrayIndexVal p.1
      · rw [if_pos h]
        exact (ih.cons q).trans (List.Perm.swap p q qs)
      · rw [if_neg h]

theorem foldr_insertIndexSorted_perm (l : List (String × List ReportRow)) :
    (l.foldr insertIndexSorted []).Perm l := by
  induction l with
  | nil => exact List.Perm.refl _
  | cons p ps ih =>
      rw [List.foldr_cons]
      exact (insertIndexSorted_perm p _).trans (ih.cons p)

theorem mem_insertIndexSorted {p q : String × List ReportRow}
    {l : List (String × List ReportRow)} (h : q ∈ insertIndexSorted p l) :
    q = p ∨ q ∈ l := by
  have := (insertIndexSorted_perm p l).mem_iff.mp h
  simpa using this

theorem pairwise_insertIndexSorted (p : String × List ReportRow)
    (l : List (String × List ReportRow))
    (hl : l.Pairwise fun a b => arrayIndexVal a.1 ≤ arrayIndexVal b.1) :
    (insertIndexSorted p l).Pairwise fun a b => arrayIndexVal a.1 ≤ arrayIndexVal b.1 := by
  induction l with
  | nil => simp [insertIndexSorted]
  | cons q qs ih =>
      rcases List.pairwise_cons.mp hl with ⟨hq, hqs⟩
      unfold insertIndexSorted
      by_cases h : arrayIndexVal q.1 ≤ arrayIndexVal p.1
      · rw [if_pos h]
        refine List.pairwise_cons.mpr ⟨?_, ih hqs⟩
        intro b hb
        rcases mem_insertIndexSorted hb with rfl | hbl
        · exact h
        · exact hq b hbl
      · rw [if_neg h]
        refine List.pairwise_cons.mpr ⟨?_, hl⟩
        intro b hb
        rcases List.mem_cons.mp hb with rfl | hbl
        · exact le_of_not_le h
        · exact le_trans (le_of_not_le h) (hq b hbl)

theorem sorted_foldr_insertIndexSorted (l : List (String × List ReportRow)) :
    (l.foldr insertIndexSorted []).Pairwise
      fun a b => arrayIndexVal a.1 ≤ arrayIndexVal b.1 := by
  induction l with
  | nil => exact List.Pairwise.nil
  | cons p ps ih =>
      rw [List.foldr_cons]
      exact pairwise_insertIndexSorted p _ ih

theorem jsOrderPairs_perm (ps : List (String × List ReportRow)) :
    (jsOrderPairs ps).Perm ps := by
  unfold jsOrderPairs
  refine ((foldr_insertIndexSorted_perm _).append (List.Perm.refl _)).trans ?_
  exact List.filter_append_perm _ ps

theorem map_fst_filter_pairs (q : String → Bool) (l : List (String × List ReportRow)) :
    (l.filter fun p => q p.1).map Prod.fst = (l.map Prod.fst).filter q := by
  induction l with
  | nil => rfl
  | cons hd tl ih =>
      simp only [List.map_cons, List.filter_cons]
      by_cases h : q hd.1
      · simp [h, ih]
      · simp [h, ih]

theorem subset_foldl_seenStep (rows : List ReportRow) (ks : List String) :
    ks ⊆ rows.foldl seenStep ks := by
  induction rows generalizing ks with
  | nil => exact fun a ha => ha
  | cons r rest ih =>
      intro a ha
      rw [List.foldl_cons]
      refine ih _ ?_
      unfold seenStep
      by_cases hm : subbottlerOf r ∈ ks
      · rw [if_pos hm]
        exact ha
      · rw [if_neg hm]
        exact List.mem_append_left _ ha

theorem mem_foldl_seenStep (r : ReportRow) :
    ∀ (rows : List ReportRow), r ∈ rows → ∀ ks : List String,
      subbottlerOf r ∈ rows.foldl seenStep ks := by
  intro rows
  induction rows with
  | nil => intro hr; cases hr
  | cons r0 rest ih =>
      intro hr ks
      rw [List.foldl_cons]
      rcases List.mem_cons.mp hr with rfl | htl
      · refine subset_foldl_seenStep rest _ ?_
        unfold seenStep
        by_cases hm : subbottlerOf r ∈ ks
        · rw [if_pos hm]
          exact hm
        · rw [if_neg hm]
          exact List.mem_append_right _ (List.mem_singleton_self _)
      · exact ih htl _

theorem mem_firstSeenKeys {r : ReportRow} {rows : List ReportRow} (hr : r ∈ rows) :
    subbottlerOf r ∈ firstSeenKeys rows :=
  mem_foldl_seenStep r rows hr []

theorem rows_of_mem_jsOrderPairs {rows : List ReportRow} {p : String × List ReportRow}
    (hp : p ∈ jsOrderPairs (groupPairs rows)) :
    p.2 = rows.filter fun r => subbottlerOf r == p.1 := by
  have hmem : p ∈ groupPairs rows := (jsOrderPairs_perm _).mem_iff.mp hp
  have hnd : ((groupPairs rows).map Prod.fst).Nodup := by
    rw [map_fst_groupPairs]
    exact firstSeenKeys_nodup rows
  have hlk : lookupKey (groupPairs rows) p.1 = some p.2 :=
    lookupKey_of_mem hnd (by rw [Prod.mk.eta]; exact hmem)
  have hgd := lookupKey_groupPairs_getD rows p.1
  rw [hlk] at hgd
  simpa using hgd

/-- C2 fails as stated: with `subbottler` keys "2" then "1" the groups come
out in ascending numeric order ["1", "2"], not in first-seen order
["2", "1"] — JS `Object.keys` enumerates array-index-like property names
first, in ascending numeric order. -/
theorem claim_C2_counterexample :
    (processedGroups [[("subbottler", "2")], [("subbottler", "1")]]).map
        SubBottlerGroup.name = ["1", "2"] ∧
    firstSeenKeys [[("subbottler", "2")], [("subbottler", "1")]] = ["2", "1"] ∧
    (processedGroups [[("subbottler", "2")], [("subbottler", "1")]]).map
        SubBottlerGroup.name ≠
      firstSeenKeys [[("subbottler", "2")], [("subbottler", "1")]] :=
  ⟨by decide, by decide, by decide⟩

theorem groupStepE_ok (acc : List (String × List ReportRow)) (row : ReportRow)
    (hr : subbottlerOf row ∉ protoKeys) :
    groupStepE acc row = .ok (groupStep acc row) := by
  unfold groupStepE groupStep
  cases hacc : lookupKey acc (subbottlerOf row) with
  | some rs => rfl
  | none => rw [if_neg hr]

theorem groupPairsEAux_ok (rows : List ReportRow) :
    ∀ acc : List (String × List ReportRow),
      (∀ r ∈ rows, subbottlerOf r ∉ protoKeys) →
      groupPairsEAux rows acc = .ok (rows.foldl groupStep acc) := by
  induction rows with
  | nil =>
      intro acc _
      rfl
  | cons r rest ih =>
      intro acc h
      have hstep := groupStepE_ok acc r (h r (List.mem_cons_self _ _))
      have hred : groupPairsEAux (r :: rest) acc = groupPairsEAux rest (groupStep acc r) := by
        conv_lhs => rw [groupPairsEAux]
        rw [hstep]
      rw [hred, List.foldl_cons]
      exact ih _ fun x hx => h x (List.mem_cons_of_mem _ hx)

theorem groupPairsEAux_error (rows : List ReportRow) :
    ∀ acc : List (String × List ReportRow),
      (∀ k ∈ acc.map Prod.fst, k ∉ protoKeys) →
      (∃ r ∈ rows, subbottlerOf r ∈ protoKeys) →
      ∃ msg, groupPairsEAux rows acc = .error msg := by
  induction rows with
  | nil =>
      rintro acc _ ⟨r, hr, _⟩
      cases hr
  | cons r rest ih =>
      rintro acc hacc hex
      by_cases hr : subbottlerOf r ∈ protoKeys
      · have hnone : lookupKey acc (subbottlerOf r) = none :=
          (lookupKey_eq_none_iff _ _).mpr fun hm => hacc _ hm hr
        have herr : groupStepE acc r = .error "TypeError: acc[key].push is not a function" := by
          unfold groupStepE
          rw [hnone, if_pos hr]
        refine ⟨"TypeError: acc[key].push is not a function", ?_⟩
        conv_lhs => rw [groupPairsEAux]
        rw [herr]
      · have hstep := groupStepE_ok acc r hr
        have hred : groupPairsEAux (r :: rest) acc = groupPairsEAux rest (groupStep acc r) := by
          conv_lhs => rw [groupPairsEAux]
          rw [hstep]
        have hinv : ∀ k ∈ (groupStep acc r).map Prod.fst, k ∉ protoKeys := by
          intro k hk
          rw [map_fst_groupStep] at hk
          unfold seenStep at hk
          by_cases hm : subbottlerOf r ∈ acc.map Prod.fst
          · rw [if_pos hm] at hk
            exact hacc k hk
          · rw [if_neg hm] at hk
            rcases List.mem_append.mp hk with hk | hk
            · exact hacc k hk
            · rw [List.mem_singleton.mp hk]
              exact hr
        have hex2 : ∃ r2 ∈ rest, subbottlerOf r2 ∈ protoKeys := by
          rcases hex with ⟨r2, hr2, hp⟩
          rcases List.mem_cons.mp hr2 with rfl | h2
          · exact absurd hp hr
          · exact ⟨r2, h2, hp⟩
        rw [hred]
        exact ih _ hinv hex2

theorem processedGroupsE_ok (rows : List ReportRow)
    (h : ∀ r ∈ rows, subbottlerOf r ∉ protoKeys) :
    processedGroupsE rows = .ok (processedGroups rows) := by
  unfold processedGroupsE groupPairsE
  rw [groupPairsEAux_ok rows [] h]
  rfl

theorem processedGroupsE_error_iff (rows : List ReportRow) :
    (∃ msg, processedGroupsE rows = .error msg) ↔
      ∃ r ∈ rows, subbottlerOf r ∈ protoKeys := by
  constructor
  · rintro ⟨msg, hmsg⟩
    by_contra hno
    push_neg at hno
    rw [processedGroupsE_ok rows hno] at hmsg
    cases hmsg
  · intro hex
    rcases groupPairsEAux_error rows []
      (by intro k hk; cases hk) hex with ⟨msg, hmsg⟩
    refine ⟨msg, ?_⟩
    unfold processedGroupsE groupPairsE
    rw [hmsg]
    rfl

/-- C2 (amended): the grouping throws a TypeError — and no partition is
produced — exactly when some row's `subbottler` is an `Object.prototype`
property name (e.g. "toString", "__proto__"), because the plain grouping
object inherits a truthy `acc[key]` so the bucket is never created and
`push` is called on a non-array.  Otherwise the partitioner produces a
partition of the input: each group's row list is exactly the in-order input
rows whose `subbottler` equals the group's name, the group sizes sum to the
input size, group names are distinct, and every input row belongs to the
group named by its own `subbottler` and to no other.  Group order is
first-seen-key order except that names which are canonical array-index
strings (e.g. "1", "2") are enumerated first, in ascending numeric order;
when no group name is such a string the order is exactly first-seen. -/
theorem claim_C2_amended :
    (∀ rows : List ReportRow, (∀ r ∈ rows, subbottlerOf r ∉ protoKeys) →
        processedGroupsE rows = .ok (processedGroups rows)) ∧
    (∀ rows : List ReportRow, (∃ msg, processedGroupsE rows = .error msg) ↔
        ∃ r ∈ rows, subbottlerOf r ∈ protoKeys) ∧
    (∀ (rows : List ReportRow) (g : SubBottlerGroup), g ∈ processedGroups rows →
        g.rows = rows.filter fun r => subbottlerOf r == g.name) ∧
    (∀ rows : List ReportRow,
        ((processedGroups rows).map fun g => g.rows.length).sum = rows.length) ∧
    (∀ rows : List ReportRow, ((processedGroups rows).map SubBottlerGroup.name).Nodup) ∧
    (∀ (rows : List ReportRow) (r : ReportRow), r ∈ rows →
        ∃ g ∈ processedGroups rows, g.name = subbottlerOf r) ∧
    (∀ (rows : List ReportRow) (r : ReportRow) (g : SubBottlerGroup), r ∈ rows →
        g ∈ processedGroups rows → (r ∈ g.rows ↔ g.name = subbottlerOf r)) ∧
    (∀ rows : List ReportRow, ∃ idxPart : List String,
        (processedGroups rows).map SubBottlerGroup.name =
          idxPart ++ (firstSeenKeys rows).filter (fun k => !isArrayIndexKey k) ∧
        idxPart.Perm ((firstSeenKeys rows).filter isArrayIndexKey) ∧
        idxPart.Pairwise fun a b => arrayIndexVal a ≤ arrayIndexVal b) ∧
    (∀ rows : List ReportRow,
        (∀ k ∈ firstSeenKeys rows, isArrayIndexKey k = false) →
        (processedGroups rows).map SubBottlerGroup.name = firstSeenKeys rows) := by
  have hnames : ∀ rows : List ReportRow,
      (processedGroups rows).map SubBottlerGroup.name =
        (jsOrderPairs (groupPairs rows)).map Prod.fst := by
    intro rows
    unfold processedGroups
    rw [List.map_map]
    rfl
  have hnamesPerm : ∀ rows : List ReportRow,
      ((processedGroups rows).map SubBottlerGroup.name).Perm (firstSeenKeys rows) := by
    intro rows
    rw [hnames, ← map_fst_groupPairs]
    exact (jsOrderPairs_perm _).map Prod.fst
  have hA : ∀ (rows : List ReportRow) (g : SubBottlerGroup), g ∈ processedGroups rows →
      g.rows = rows.filter fun r => subbottlerOf r == g.name := by
    intro rows g hg
    unfold processedGroups at hg
    rcases List.mem_map.mp hg with ⟨p, hp, hpg⟩
    cases hpg
    exact rows_of_mem_jsOrderPairs hp
  have hF : ∀ rows : List ReportRow, ∃ idxPart : List String,
      (processedGroups rows).map SubBottlerGroup.name =
        idxPart ++ (firstSeenKeys rows).filter (fun k => !isArrayIndexKey k) ∧
      idxPart.Perm ((firstSeenKeys rows).filter isArrayIndexKey) ∧
      idxPart.Pairwise fun a b => arrayIndexVal a ≤ arrayIndexVal b := by
    intro rows
    refine ⟨(((groupPairs rows).filter fun p => isArrayIndexKey p.1).foldr
      insertIndexSorted []).map Prod.fst, ?_, ?_, ?_⟩
    · rw [hnames]
      unfold jsOrderPairs
      rw [List.map_append, map_fst_filter_pairs (fun k => !isArrayIndexKey k) (groupPairs rows),
        map_fst_groupPairs]
    · have h1 := (foldr_insertIndexSorted_perm
        ((groupPairs rows).filter fun p => isArrayIndexKey p.1)).map Prod.fst
      rw [map_fst_filter_pairs, map_fst_groupPairs] at h1
      exact h1
    · rw [List.pairwise_map]
      exact sorted_foldr_insertIndexSorted _
  refine ⟨processedGroupsE_ok, processedGroupsE_error_iff, hA, ?_, ?_, ?_, ?_, hF, ?_⟩
  · intro rows
    unfold processedGroups
    rw [List.map_map]
    have hperm : ((jsOrderPairs (groupPairs rows)).map fun p => p.2.length).Perm
        ((groupPairs rows).map fun p => p.2.length) :=
      (jsOrderPairs_perm _).map _
    calc ((jsOrderPairs (groupPairs rows)).map
            ((fun g : SubBottlerGroup => g.rows.length) ∘ fun p => ⟨p.1, p.2⟩)).sum
        = ((jsOrderPairs (groupPairs rows)).map fun p => p.2.length).sum := rfl
      _ = ((groupPairs rows).map fun p => p.2.length).sum := hperm.sum_eq
      _ = rows.length := sum_groupPairs rows
  · intro rows
    exact ((hnamesPerm rows).nodup_iff).mpr (firstSeenKeys_nodup rows)
  · intro rows r hr
    have hk : subbottlerOf r ∈ (processedGroups rows).map SubBottlerGroup.name :=
      ((hnamesPerm rows).mem_iff).mpr (mem_firstSeenKeys hr)
    rcases List.mem_map.mp hk with ⟨g, hg, hgname⟩
    exact ⟨g, hg, hgname⟩
  · intro rows r g hr hg
    rw [hA rows g hg, List.mem_filter]
    constructor
    · rintro ⟨_, hb⟩
      exact (beq_iff_eq.mp hb).symm
    · intro hb
      exact ⟨hr, beq_iff_eq.mpr hb.symm⟩
  · intro rows hall
    rcases hF rows with ⟨idxPart, heq, hperm, _⟩
    have hidx : (firstSeenKeys rows).filter isArrayIndexKey = [] := by
      rw [List.filter_eq_nil_iff]
      intro k hk
      rw [hall k hk]
      exact Bool.false_ne_true
    rw [hidx] at hperm
    have hnil : idxPart = [] := hperm.eq_nil
    have hstr : (firstSeenKeys rows).filter (fun k => !isArrayIndexKey k) =
        firstSeenKeys rows := by
      rw [List.filter_eq_self]
      intro k hk
      rw [hall k hk]
      rfl
    rw [heq, hnil, hstr, List.nil_append]

/-- Witness for the amended C2: ordinary keys give the successful
partition in first-seen order; the key "toString" makes the grouping
throw. -/
theorem claim_C2_witness :
    processedGroupsE [[("subbottler", "beta")], [("subbottler", "alpha")]] =
      .ok (processedGroups [[("subbottler", "beta")], [("subbottler", "alpha")]]) ∧
    (processedGroups [[("subbottler", "beta")], [("subbottler", "alpha")]]).map
        SubBottlerGroup.name =
      firstSeenKeys [[("subbottler", "beta")], [("subbottler", "alpha")]] ∧
    (∃ msg, processedGroupsE [[("subbottler", "toString")]] = .error msg) :=
  ⟨claim_C2_amended.1 _ (by decide),
   claim_C2_amended.2.2.2.2.2.2.2.2 _ (by decide),
   (claim_C2_amended.2.1 _).mpr ⟨[("subbottler", "toString")], by decide, by decide⟩⟩

end AutoEmailer
